import Mathlib

/-!
Known-bits transfer functions for rotate-left.

A shallow embedding of `src/main.cpp`: the enumerator of known-bits values, the
concretization and abstraction functions, the shift / or / rotate-left transfer
functions in their composite and decomposed forms, and the precision comparator.

`llvm::APInt` is a pair of a bit width and an unsigned value below `2 ^ BitWidth`;
the masks of `llvm::KnownBits` are two such values.  Machine integers
(`size_t`, `unsigned`) are natural numbers, reduced modulo `2 ^ 64` where the
source can overflow.
-/

namespace KBT

/-! ## llvm::APInt -/

/-- Fixed-width unsigned integer `llvm::APInt`: the width and the value of the bits. -/
structure APInt where
  BitWidth : Nat
  val : Nat
deriving DecidableEq

namespace APInt

/-- Constructor `APInt(numBits, val)` from a 64-bit word `v < 2 ^ 64`: the bits of `v`
above the width are dropped, and for a width above 64 only the low word is filled. -/
def ofU64 (numBits v : Nat) : APInt := ⟨numBits, v % 2 ^ numBits⟩

/-- Accessor `getBitWidth()`. -/
def getBitWidth (x : APInt) : Nat := x.BitWidth

/-- Bit read `operator[]`. -/
def get (x : APInt) (i : Nat) : Bool := x.val.testBit i

/-- Method `setBit(BitPosition)`. -/
def setBit (x : APInt) (b : Nat) : APInt := ⟨x.BitWidth, x.val ||| 2 ^ b⟩

/-- Method `clearBit(BitPosition)`: the word is and-ed with the complement of the bit mask. -/
def clearBit (x : APInt) (b : Nat) : APInt := ⟨x.BitWidth, x.val ^^^ (x.val &&& 2 ^ b)⟩

/-- Method `clearAllBits()`. -/
def clearAllBits (x : APInt) : APInt := ⟨x.BitWidth, 0⟩

/-- Method `shl(shiftAmt)`: zero-filling left shift, truncated to the width; a shift by
the whole width gives 0.  LLVM asserts `shiftAmt ≤ BitWidth`; the transfer functions never
pass a larger amount, and as a concrete operation a larger amount gives 0 as well. -/
def shl (x : APInt) (k : Nat) : APInt :=
  ⟨x.BitWidth, if x.BitWidth ≤ k then 0 else (x.val <<< k) % 2 ^ x.BitWidth⟩

/-- Method `lshr(shiftAmt)`: logical right shift; a shift by the whole width gives 0 (and
so does a larger amount, see `shl`). -/
def lshr (x : APInt) (k : Nat) : APInt :=
  ⟨x.BitWidth, if x.BitWidth ≤ k then 0 else x.val >>> k⟩

/-- Bitwise or `operator|` of two values of one width. -/
def or (x y : APInt) : APInt := ⟨x.BitWidth, x.val ||| y.val⟩

/-- Bitwise and `operator&` of two values of one width. -/
def and (x y : APInt) : APInt := ⟨x.BitWidth, x.val &&& y.val⟩

/-- Bitwise complement `operator~` within the width. -/
def not (x : APInt) : APInt := ⟨x.BitWidth, x.val ^^^ (2 ^ x.BitWidth - 1)⟩

/-- Method `setBits(loBit, hiBit)`: sets the bits at positions `loBit ≤ i < hiBit`. -/
def setBits (x : APInt) (loBit hiBit : Nat) : APInt :=
  ⟨x.BitWidth, x.val ||| ((2 ^ (hiBit - loBit) - 1) <<< loBit)⟩

/-- Method `setLowBits(loBits)`. -/
def setLowBits (x : APInt) (loBits : Nat) : APInt := x.setBits 0 loBits

/-- Method `setHighBits(hiBits)`. -/
def setHighBits (x : APInt) (hiBits : Nat) : APInt :=
  x.setBits (x.BitWidth - hiBits) x.BitWidth

/-- Value equality `operator==` of two values of one width. -/
def eq (x y : APInt) : Bool := x.val == y.val

/-- Unsigned comparison `ult`. -/
def ult (x y : APInt) : Bool := decide (x.val < y.val)

/-- Concrete rotate-left `rotl(rotateAmt)`: the amount is reduced modulo the width. -/
def rotl (x : APInt) (k : Nat) : APInt :=
  let r := k % x.BitWidth
  if r = 0 then x else (x.shl r).or (x.lshr (x.BitWidth - r))

/-- A value of width `W` whose bits all lie inside the width. -/
def IsW (W : Nat) (x : APInt) : Prop := x.BitWidth = W ∧ x.val < 2 ^ W

instance (W : Nat) (x : APInt) : Decidable (IsW W x) := by
  unfold IsW; infer_instance

end APInt

/-! ## llvm::KnownBits -/

/-- The pair of masks `llvm::KnownBits`. -/
structure KnownBits where
  Zero : APInt
  One : APInt
deriving DecidableEq

namespace KnownBits

/-- Constructor `KnownBits(BitWidth)`: both masks empty. -/
def init (BitWidth : Nat) : KnownBits := ⟨⟨BitWidth, 0⟩, ⟨BitWidth, 0⟩⟩

/-- Accessor `getBitWidth()`. -/
def getBitWidth (X : KnownBits) : Nat := X.Zero.BitWidth

/-- Method `resetAll()`: clears both masks, so that every bit is unknown. -/
def resetAll (X : KnownBits) : KnownBits := ⟨X.Zero.clearAllBits, X.One.clearAllBits⟩

/-- A known-bits value of width `W`: both masks are `W`-bit values. -/
def IsW (W : Nat) (X : KnownBits) : Prop := X.Zero.IsW W ∧ X.One.IsW W

/-- Well-formed: no bit position is set in both masks. -/
def WellFormed (X : KnownBits) : Prop := X.Zero.val &&& X.One.val = 0

/-- The concrete value `v` matches `X`: it has 0 at every bit of `X.Zero` and 1 at every
bit of `X.One`. -/
def Matches (v : APInt) (X : KnownBits) : Prop :=
  v.val &&& X.Zero.val = 0 ∧ v.val &&& X.One.val = X.One.val

instance (W : Nat) (X : KnownBits) : Decidable (IsW W X) := by
  unfold IsW; infer_instance

instance (X : KnownBits) : Decidable (WellFormed X) := by
  unfold WellFormed; infer_instance

instance (v : APInt) (X : KnownBits) : Decidable (Matches v X) := by
  unfold Matches; infer_instance

end KnownBits

/-! ## Enumerator -/

/-- Lines 18-20: `NumValues` is multiplied by 3 once per bit, in `size_t` arithmetic. -/
def numValues3 (BitWidth : Nat) : Nat :=
  (List.range BitWidth).foldl (fun NumValues _ => NumValues * 3 % 2 ^ 64) 1

/-- Lines 26-46: the loop over the bit positions `bit, bit + 1, ...` with `n` positions
left; returns the masks and the `Overlap` flag (the loop stops when the flag is set). -/
def genBits : Nat → Nat → KnownBits → Nat → KnownBits × Bool
  | 0, _, KB, _ => (KB, false)
  | n + 1, bit, KB, idx =>
    let rem := idx % 3
    let idx := idx / 3
    let KB : KnownBits :=
      if rem = 0 then ⟨KB.Zero.clearBit bit, KB.One.clearBit bit⟩
      else if rem = 1 then ⟨KB.Zero.setBit bit, KB.One.clearBit bit⟩
      else ⟨KB.Zero.clearBit bit, KB.One.setBit bit⟩
    if KB.Zero.get bit && KB.One.get bit then (KB, true)
    else genBits n (bit + 1) KB idx

/-- Lines 23-48: the body of the outer loop for the index `i`. -/
def genStep (BitWidth : Nat) (AllKnownBits : List KnownBits) (i : Nat) : List KnownBits :=
  let r := genBits BitWidth 0 (KnownBits.init BitWidth) i
  if !r.2 then AllKnownBits ++ [r.1] else AllKnownBits

/-- Function `generateAllKnownBits`: appends the enumerated values to `AllKnownBits`. -/
def generateAllKnownBits (BitWidth : Nat) (AllKnownBits : List KnownBits) : List KnownBits :=
  (List.range (numValues3 BitWidth)).foldl (genStep BitWidth) AllKnownBits

/-! ## Sets of concrete values -/

/-- Insertion into `std::set<APInt, APIntCompare>`, kept as a list in ascending `ult`
order; an element equivalent to one already present is not inserted. -/
def setInsert (x : APInt) : List APInt → List APInt
  | [] => [x]
  | y :: ys =>
    if x.ult y then x :: y :: ys
    else if y.ult x then y :: setInsert x ys
    else y :: ys

/-! ## Concretization -/

/-- Lines 62-68: the body of the scan loop at position `i`, on the state `Value`,
`NumUnknownBits`, `UnknownBitPositions`. -/
def concretizeScanStep (KnownZero KnownOne : APInt) (s : APInt × Nat × List Nat) (i : Nat) :
    APInt × Nat × List Nat :=
  if !KnownZero.get i && !KnownOne.get i then (s.1, s.2.1 + 1, s.2.2 ++ [i])
  else if KnownOne.get i then (s.1.setBit i, s.2.1, s.2.2)
  else s

/-- Lines 58-69: the scan of the bit positions; returns `Value`, `NumUnknownBits` and
`UnknownBitPositions`. -/
def concretizeScan (BitWidth : Nat) (KnownZero KnownOne : APInt) : APInt × Nat × List Nat :=
  (List.range BitWidth).foldl (concretizeScanStep KnownZero KnownOne)
    (APInt.ofU64 BitWidth 0, 0, [])

/-- Lines 74-78: the body of the inner loop, which copies bit `j` of `i` to the `j`-th
unknown position. -/
def concretizeBitStep (UnknownBitPositions : List Nat) (i : Nat) (ConcreteValue : APInt)
    (j : Nat) : APInt :=
  let BitPos := UnknownBitPositions.getD j 0
  if i &&& (1 <<< j) ≠ 0 then ConcreteValue.setBit BitPos
  else ConcreteValue.clearBit BitPos

/-- Lines 72-79: the concrete value number `i`. -/
def concretizeValue (Value : APInt) (UnknownBitPositions : List Nat) (i : Nat) : APInt :=
  (List.range UnknownBitPositions.length).foldl (concretizeBitStep UnknownBitPositions i)
    Value

/-- Function `concretizeKnownBits`: inserts the concrete values of `KB` into
`ConcreteValues`.  The shift `1ULL << NumUnknownBits` is undefined for 64 or more
unknown bits; the result is then `none`. -/
def concretizeKnownBits (KB : KnownBits) (ConcreteValues : List APInt) :
    Option (List APInt) :=
  let BitWidth := KB.getBitWidth
  let KnownZero := KB.Zero
  let KnownOne := KB.One
  let s := concretizeScan BitWidth KnownZero KnownOne
  let Value := s.1
  let NumUnknownBits := s.2.1
  let UnknownBitPositions := s.2.2
  if 64 ≤ NumUnknownBits then none
  else
    let NumValues := 1 <<< NumUnknownBits
    some ((List.range NumValues).foldl
      (fun S i => setInsert (concretizeValue Value UnknownBitPositions i) S)
      ConcreteValues)

/-! ## Abstraction -/

/-- Function `abstractValues`: the assertion rejects the empty set (`none`); otherwise
the two accumulators are folded over the elements. -/
def abstractValues (ConcreteValues : List APInt) : Option KnownBits :=
  match ConcreteValues with
  | [] => none
  | first :: _ =>
    let BitWidth := first.getBitWidth
    let KnownZero := APInt.ofU64 BitWidth 0
    let KnownOne := APInt.ofU64 BitWidth (2 ^ 64 - 1)
    let r := ConcreteValues.foldl
      (fun (s : APInt × APInt) Val => (s.1.or Val.not, s.2.and Val))
      (KnownZero, KnownOne)
    some ⟨r.1, r.2⟩

/-! ## Transfer functions -/

/-- Function `knownBitsRotateLeft`: the composite transfer function.  For `BitWidth = 0`
the reduction `ShiftAmount %= BitWidth` is undefined in the source; the theorems take
`BitWidth ≥ 1`. -/
def knownBitsRotateLeft (X : KnownBits) (ShiftAmount : Nat) : KnownBits :=
  let BitWidth := X.getBitWidth
  let ShiftAmount := ShiftAmount % BitWidth
  ⟨(X.Zero.shl ShiftAmount).or (X.Zero.lshr (BitWidth - ShiftAmount)),
   (X.One.shl ShiftAmount).or (X.One.lshr (BitWidth - ShiftAmount))⟩

/-- Function `knownBitsShl`. -/
def knownBitsShl (X : KnownBits) (ShiftAmount : Nat) : KnownBits :=
  let BitWidth := X.getBitWidth
  let Result := KnownBits.init BitWidth
  if BitWidth ≤ ShiftAmount then Result.resetAll
  else
    ⟨(X.Zero.shl ShiftAmount).setLowBits ShiftAmount, X.One.shl ShiftAmount⟩

/-- Function `knownBitsLshr`. -/
def knownBitsLshr (X : KnownBits) (ShiftAmount : Nat) : KnownBits :=
  let BitWidth := X.getBitWidth
  let Result := KnownBits.init BitWidth
  if BitWidth ≤ ShiftAmount then Result.resetAll
  else
    ⟨(X.Zero.lshr ShiftAmount).setHighBits ShiftAmount, X.One.lshr ShiftAmount⟩

/-- Function `knownBitsOr`. -/
def knownBitsOr (A B : KnownBits) : KnownBits :=
  ⟨A.Zero.and B.Zero, A.One.or B.One⟩

/-- Function `knownBitsRotateLeftDecomposed`: the decomposed transfer function (for
`BitWidth = 0` see `knownBitsRotateLeft`). -/
def knownBitsRotateLeftDecomposed (X : KnownBits) (ShiftAmount : Nat) : KnownBits :=
  let BitWidth := X.getBitWidth
  let ShiftAmount := ShiftAmount % BitWidth
  let LeftShifted := knownBitsShl X ShiftAmount
  let RightShifted := knownBitsLshr X (BitWidth - ShiftAmount)
  knownBitsOr LeftShifted RightShifted

/-! ## Precision comparator -/

/-- Enumeration `ComparisonResult`. -/
inductive ComparisonResult where
  | Equal
  | CompositeMorePrecise
  | DecomposedMorePrecise
  | Incomparable
deriving DecidableEq

open ComparisonResult in
/-- Function `compareKnownBits`. -/
def compareKnownBits (CompositeKB DecomposedKB : KnownBits) : ComparisonResult :=
  let CompositeAtLeastAsPrecise :=
    ((CompositeKB.One.or DecomposedKB.One).eq CompositeKB.One) &&
    ((CompositeKB.Zero.or DecomposedKB.Zero).eq CompositeKB.Zero)
  let DecomposedAtLeastAsPrecise :=
    ((DecomposedKB.One.or CompositeKB.One).eq DecomposedKB.One) &&
    ((DecomposedKB.Zero.or CompositeKB.Zero).eq DecomposedKB.Zero)
  if CompositeKB.One.eq DecomposedKB.One && CompositeKB.Zero.eq DecomposedKB.Zero then Equal
  else if CompositeAtLeastAsPrecise && !DecomposedAtLeastAsPrecise then CompositeMorePrecise
  else if DecomposedAtLeastAsPrecise && !CompositeAtLeastAsPrecise then DecomposedMorePrecise
  else Incomparable

/-! ## Driver -/

/-- The numbers reported by `testTransferFunctions`. -/
structure Counts where
  TotalValues : Nat
  CompositeMorePreciseCount : Nat
  DecomposedMorePreciseCount : Nat
  IncomparableCount : Nat
  EqualCount : Nat
deriving DecidableEq

open ComparisonResult in
/-- Lines 204-220: the body of the loop over the enumerated values. -/
def testStep (ShiftAmount : Nat) (c : Counts) (X : KnownBits) : Counts :=
  let CompositeResult := knownBitsRotateLeft X ShiftAmount
  let DecomposedResult := knownBitsRotateLeftDecomposed X ShiftAmount
  let CompResult := compareKnownBits CompositeResult DecomposedResult
  if CompResult = CompositeMorePrecise then
    { c with CompositeMorePreciseCount := c.CompositeMorePreciseCount + 1 }
  else if CompResult = DecomposedMorePrecise then
    { c with DecomposedMorePreciseCount := c.DecomposedMorePreciseCount + 1 }
  else if CompResult = Incomparable then
    { c with IncomparableCount := c.IncomparableCount + 1 }
  else if CompResult = Equal then
    { c with EqualCount := c.EqualCount + 1 }
  else c

/-- Function `testTransferFunctions`: the counts it prints. -/
def testTransferFunctions (BitWidth ShiftAmount : Nat) : Counts :=
  let AllKnownBits := generateAllKnownBits BitWidth []
  AllKnownBits.foldl (testStep ShiftAmount) ⟨AllKnownBits.length, 0, 0, 0, 0⟩

/-! ## Specification-side definitions -/

/-- The known-bits value of width `W` whose bits are all known zero. -/
def allKnownZero (W : Nat) : KnownBits := ⟨⟨W, 2 ^ W - 1⟩, ⟨W, 0⟩⟩

/-- The index whose base-3 digits encode the masks `Z` and `O` on the low `n` bits:
digit 1 for a bit of `Z`, digit 2 for a bit of `O`, digit 0 otherwise. -/
def tritEncode : Nat → Nat → Nat → Nat
  | 0, _, _ => 0
  | n + 1, Z, O =>
    (if Z.testBit 0 then 1 else if O.testBit 0 then 2 else 0) + 3 * tritEncode n (Z / 2) (O / 2)

/-- The masks that the inner loop of `generateAllKnownBits` assembles for the index `i`. -/
def genValue (BitWidth i : Nat) : KnownBits :=
  (genBits BitWidth 0 (KnownBits.init BitWidth) i).1

/-- The number of unknown bits of a known-bits value of width `W`: the positions below
`W` that are set in neither mask. -/
def numUnknown (W : Nat) (X : KnownBits) : Nat :=
  ((Finset.range W).filter
    (fun i => X.Zero.val.testBit i = false ∧ X.One.val.testBit i = false)).card

/-- The index whose bit `j` is the bit of `v` at the `j`-th position of the list. -/
def packBits (v : Nat) : List Nat → Nat
  | [] => 0
  | p :: ps => (if v.testBit p then 1 else 0) + 2 * packBits v ps

/-- The precision order of the specification: `A` is at least as precise as `B` when
each mask of `A` contains the corresponding mask of `B`. -/
def KnownBits.AtLeastAsPrecise (A B : KnownBits) : Prop :=
  A.One.val ||| B.One.val = A.One.val ∧ A.Zero.val ||| B.Zero.val = A.Zero.val

instance (A B : KnownBits) : Decidable (KnownBits.AtLeastAsPrecise A B) := by
  unfold KnownBits.AtLeastAsPrecise; infer_instance

/-! ## Bit-level lemmas -/

theorem and_eq_zero_iff_bits (a b : Nat) :
    a &&& b = 0 ↔ ∀ p, a.testBit p = true → b.testBit p = false := by
  constructor
  · intro h p hp
    have h2 := congrArg (fun n => Nat.testBit n p) h
    simp only [Nat.testBit_and, Nat.zero_testBit, hp, Bool.true_and] at h2
    exact h2
  · intro h
    apply Nat.eq_of_testBit_eq
    intro p
    rw [Nat.testBit_and, Nat.zero_testBit]
    cases ha : a.testBit p
    · rfl
    · simp [h p ha]

theorem and_eq_right_iff_bits (a b : Nat) :
    a &&& b = b ↔ ∀ p, b.testBit p = true → a.testBit p = true := by
  constructor
  · intro h p hp
    have h2 := congrArg (fun n => Nat.testBit n p) h
    simp only [Nat.testBit_and, hp, Bool.and_true] at h2
    exact h2
  · intro h
    apply Nat.eq_of_testBit_eq
    intro p
    rw [Nat.testBit_and]
    cases hb : b.testBit p
    · simp
    · simp [h p hb]

theorem testBit_eq_false_of_lt {x W p : Nat} (hx : x < 2 ^ W) (hp : W ≤ p) :
    x.testBit p = false :=
  Nat.testBit_lt_two_pow (Nat.lt_of_lt_of_le hx (Nat.pow_le_pow_right (by decide) hp))

theorem matches_iff_bits (v : APInt) (X : KnownBits) :
    KnownBits.Matches v X ↔
      ∀ p, (X.Zero.val.testBit p = true → v.val.testBit p = false) ∧
           (X.One.val.testBit p = true → v.val.testBit p = true) := by
  unfold KnownBits.Matches
  rw [and_eq_zero_iff_bits, and_eq_right_iff_bits]
  constructor
  · rintro ⟨h1, h2⟩ p
    refine ⟨fun hz => ?_, h2 p⟩
    cases hv : v.val.testBit p
    · rfl
    · rw [h1 p hv] at hz; cases hz
  · intro h
    refine ⟨fun p hv => ?_, fun p => (h p).2⟩
    cases hz : X.Zero.val.testBit p
    · rfl
    · rw [(h p).1 hz] at hv; cases hv

theorem testBit_setBit (x : APInt) (b p : Nat) :
    (x.setBit b).val.testBit p = (x.val.testBit p || decide (b = p)) := by
  simp [APInt.setBit, Nat.testBit_two_pow]

theorem testBit_clearBit (x : APInt) (b p : Nat) :
    (x.clearBit b).val.testBit p = (x.val.testBit p && !decide (b = p)) := by
  simp only [APInt.clearBit, Nat.testBit_xor, Nat.testBit_and, Nat.testBit_two_pow]
  cases x.val.testBit p <;> cases decide (b = p) <;> rfl

theorem testBit_shl (x : APInt) (k p : Nat) :
    (x.shl k).val.testBit p =
      (decide (k < x.BitWidth) && decide (p < x.BitWidth) && decide (k ≤ p) &&
        x.val.testBit (p - k)) := by
  unfold APInt.shl
  by_cases h : x.BitWidth ≤ k
  · have h2 : ¬ k < x.BitWidth := by omega
    simp [h, h2]
  · have h2 : k < x.BitWidth := by omega
    simp [h, h2, Bool.and_assoc]

theorem testBit_lshr (x : APInt) (k p : Nat) :
    (x.lshr k).val.testBit p = (decide (k < x.BitWidth) && x.val.testBit (k + p)) := by
  unfold APInt.lshr
  by_cases h : x.BitWidth ≤ k
  · have h2 : ¬ k < x.BitWidth := by omega
    simp [h, h2]
  · have h2 : k < x.BitWidth := by omega
    simp [h, h2]

theorem testBit_setBits (x : APInt) (lo hi p : Nat) :
    (x.setBits lo hi).val.testBit p =
      (x.val.testBit p || (decide (lo ≤ p) && decide (p < hi))) := by
  simp only [APInt.setBits, Nat.testBit_or, Nat.testBit_shiftLeft, Nat.testBit_two_pow_sub_one]
  congr 1
  by_cases h1 : lo ≤ p
  · by_cases h2 : p < hi
    · have : p - lo < hi - lo := by omega
      simp [h1, h2, this]
    · have : ¬ p - lo < hi - lo := by omega
      simp [h1, h2, this]
  · simp [h1]

/-! ## Soundness of the transfer functions -/

@[simp] theorem shl_BitWidth (x : APInt) (k : Nat) : (x.shl k).BitWidth = x.BitWidth := rfl

@[simp] theorem lshr_BitWidth (x : APInt) (k : Nat) : (x.lshr k).BitWidth = x.BitWidth := rfl

@[simp] theorem or_BitWidth (x y : APInt) : (x.or y).BitWidth = x.BitWidth := rfl

@[simp] theorem and_BitWidth (x y : APInt) : (x.and y).BitWidth = x.BitWidth := rfl

@[simp] theorem setBits_BitWidth (x : APInt) (lo hi : Nat) :
    (x.setBits lo hi).BitWidth = x.BitWidth := rfl

theorem knownBitsShl_sound (A : KnownBits) (a : APInt) (k : Nat)
    (hw : a.BitWidth = A.Zero.BitWidth) (hw1 : A.One.BitWidth = A.Zero.BitWidth)
    (hm : KnownBits.Matches a A) :
    KnownBits.Matches (a.shl k) (knownBitsShl A k) := by
  rw [matches_iff_bits] at hm ⊢
  intro p
  unfold knownBitsShl
  by_cases h : A.getBitWidth ≤ k
  · simp [h, KnownBits.resetAll, KnownBits.init, APInt.clearAllBits]
  · simp only [h, if_false, APInt.setLowBits, testBit_setBits, testBit_shl,
      hw, hw1]
    simp only [KnownBits.getBitWidth] at h
    have hk : k < A.Zero.BitWidth := by omega
    simp only [hk, decide_True, Bool.true_and, Bool.and_eq_true, Bool.or_eq_true,
      decide_eq_true_eq, Nat.zero_le]
    constructor
    · rintro (⟨⟨h1, h2⟩, h3⟩ | h2)
      · simp [h1, h2, (hm (p - k)).1 h3]
      · have : ¬ k ≤ p := by omega
        simp [this]
    · rintro ⟨⟨h1, h2⟩, h3⟩
      simp [h1, h2, (hm (p - k)).2 h3]

theorem knownBitsLshr_sound (A : KnownBits) (a : APInt) (k : Nat)
    (hw : a.BitWidth = A.Zero.BitWidth) (hw1 : A.One.BitWidth = A.Zero.BitWidth)
    (ha : a.val < 2 ^ a.BitWidth)
    (hm : KnownBits.Matches a A) :
    KnownBits.Matches (a.lshr k) (knownBitsLshr A k) := by
  rw [matches_iff_bits] at hm ⊢
  intro p
  unfold knownBitsLshr
  by_cases h : A.getBitWidth ≤ k
  · simp [h, KnownBits.resetAll, KnownBits.init, APInt.clearAllBits]
  · simp only [h, if_false, APInt.setHighBits, testBit_setBits, testBit_lshr,
      lshr_BitWidth, hw, hw1]
    simp only [KnownBits.getBitWidth] at h
    have hk : k < A.Zero.BitWidth := by omega
    simp only [hk, decide_True, Bool.true_and, Bool.and_eq_true, Bool.or_eq_true,
      decide_eq_true_eq]
    constructor
    · rintro (h3 | ⟨h1, h2⟩)
      · exact (hm (k + p)).1 h3
      · rw [hw] at ha
        exact testBit_eq_false_of_lt ha (by omega)
    · intro h3
      exact (hm (k + p)).2 h3

theorem knownBitsOr_sound (A B : KnownBits) (a b : APInt)
    (hma : KnownBits.Matches a A) (hmb : KnownBits.Matches b B) :
    KnownBits.Matches (a.or b) (knownBitsOr A B) := by
  rw [matches_iff_bits] at hma hmb ⊢
  intro p
  simp only [knownBitsOr, APInt.or, APInt.and, Nat.testBit_or, Nat.testBit_and,
    Bool.and_eq_true, Bool.or_eq_true, Bool.or_eq_false_iff]
  constructor
  · rintro ⟨h1, h2⟩
    exact ⟨(hma p).1 h1, (hmb p).1 h2⟩
  · rintro (h1 | h2)
    · exact Or.inl ((hma p).2 h1)
    · exact Or.inr ((hmb p).2 h2)

/-- C3: soundness of the primitive transfer functions.  For every width `W ≥ 1`, every
shift amount `k`, known-bits values `A`, `B` of width `W` and concrete `W`-bit vectors
`a` matching `A` and `b` matching `B`: `a shl k` matches `knownBitsShl A k`, `a lshr k`
matches `knownBitsLshr A k` and `a or b` matches `knownBitsOr A B` (a concrete shift by
`k ≥ W` gives 0). -/
theorem transfer_primitives_sound (W k : Nat) (_hW : 1 ≤ W) (A B : KnownBits) (a b : APInt)
    (hA : A.IsW W) (_hB : B.IsW W) (ha : a.IsW W) (_hb : b.IsW W)
    (hma : KnownBits.Matches a A) (hmb : KnownBits.Matches b B) :
    KnownBits.Matches (a.shl k) (knownBitsShl A k) ∧
    KnownBits.Matches (a.lshr k) (knownBitsLshr A k) ∧
    KnownBits.Matches (a.or b) (knownBitsOr A B) := by
  have hw : a.BitWidth = A.Zero.BitWidth := by rw [ha.1, hA.1.1]
  have hw1 : A.One.BitWidth = A.Zero.BitWidth := by rw [hA.1.1, hA.2.1]
  refine ⟨knownBitsShl_sound A a k hw hw1 hma, knownBitsLshr_sound A a k hw hw1 ?_ hma,
    knownBitsOr_sound A B a b hma hmb⟩
  rw [ha.1]; exact ha.2

/-- Witness for C3 at width 4, shift 1: `a = 0b0110` matches `A = (Zero 0b1000, One
0b0010)` and `b = 0b1001` matches `B = (Zero 0b0100, One 0b0001)`. -/
theorem transfer_primitives_sound_witness :
    KnownBits.Matches (APInt.shl ⟨4, 6⟩ 1) (knownBitsShl ⟨⟨4, 8⟩, ⟨4, 2⟩⟩ 1) ∧
    KnownBits.Matches (APInt.lshr ⟨4, 6⟩ 1) (knownBitsLshr ⟨⟨4, 8⟩, ⟨4, 2⟩⟩ 1) ∧
    KnownBits.Matches (APInt.or ⟨4, 6⟩ ⟨4, 9⟩)
      (knownBitsOr ⟨⟨4, 8⟩, ⟨4, 2⟩⟩ ⟨⟨4, 4⟩, ⟨4, 1⟩⟩) :=
  transfer_primitives_sound 4 1 (by decide) ⟨⟨4, 8⟩, ⟨4, 2⟩⟩ ⟨⟨4, 4⟩, ⟨4, 1⟩⟩ ⟨4, 6⟩ ⟨4, 9⟩
    (by decide) (by decide) (by decide) (by decide) (by decide) (by decide)

theorem rotl_eq_shl_or_lshr (W k : Nat) (hW : 1 ≤ W) (v : APInt) (hv : v.IsW W) :
    v.rotl k = (v.shl (k % W)).or (v.lshr (W - k % W)) := by
  obtain ⟨hw, hlt⟩ := hv
  unfold APInt.rotl
  simp only [hw]
  by_cases hr : k % W = 0
  · have h0 : ¬ W ≤ 0 := by omega
    simp [hr, APInt.shl, APInt.lshr, APInt.or, hw, h0, Nat.mod_eq_of_lt hlt]
    cases v
    simp_all
  · simp [hr]

theorem knownBitsRotateLeft_sound (W k : Nat) (hW : 1 ≤ W) (X : KnownBits) (v : APInt)
    (hX : X.IsW W) (hv : v.IsW W) (hm : KnownBits.Matches v X) :
    KnownBits.Matches (v.rotl k) (knownBitsRotateLeft X k) := by
  rw [rotl_eq_shl_or_lshr W k hW v hv]
  obtain ⟨⟨hz, hzlt⟩, ⟨ho, holt⟩⟩ := hX
  obtain ⟨hw, hlt⟩ := hv
  have hr : k % W < W := Nat.mod_lt _ (by omega)
  rw [matches_iff_bits] at hm ⊢
  intro p
  simp only [knownBitsRotateLeft, KnownBits.getBitWidth, APInt.or, Nat.testBit_or,
    testBit_shl, testBit_lshr, hz, ho, hw, hr, decide_True, Bool.true_and,
    Bool.or_eq_true, Bool.and_eq_true, decide_eq_true_eq, Bool.or_eq_false_iff,
    Bool.and_eq_false_imp]
  constructor
  · rintro (⟨⟨h1, h2⟩, h3⟩ | ⟨h1, h3⟩)
    · refine ⟨fun _ => (hm _).1 h3, fun _ => ?_⟩
      exact testBit_eq_false_of_lt hlt (by omega)
    · have hp : W - k % W + p < W := by
        by_contra hc
        rw [testBit_eq_false_of_lt hzlt (by omega)] at h3
        cases h3
      refine ⟨fun h2 => ?_, fun _ => (hm _).1 h3⟩
      omega
  · rintro (⟨⟨h1, h2⟩, h3⟩ | ⟨h1, h3⟩)
    · exact Or.inl ⟨⟨h1, h2⟩, (hm _).2 h3⟩
    · exact Or.inr ⟨h1, (hm _).2 h3⟩

theorem knownBitsRotateLeftDecomposed_sound (W k : Nat) (hW : 1 ≤ W) (X : KnownBits)
    (v : APInt) (hX : X.IsW W) (hv : v.IsW W) (hm : KnownBits.Matches v X) :
    KnownBits.Matches (v.rotl k) (knownBitsRotateLeftDecomposed X k) := by
  rw [rotl_eq_shl_or_lshr W k hW v hv]
  have hw : v.BitWidth = X.Zero.BitWidth := by rw [hv.1, hX.1.1]
  have hw1 : X.One.BitWidth = X.Zero.BitWidth := by rw [hX.1.1, hX.2.1]
  have hlt : v.val < 2 ^ v.BitWidth := by rw [hv.1]; exact hv.2
  unfold knownBitsRotateLeftDecomposed
  simp only [KnownBits.getBitWidth, hX.1.1]
  exact knownBitsOr_sound _ _ _ _ (knownBitsShl_sound X v _ hw hw1 hm)
    (knownBitsLshr_sound X v _ hw hw1 hlt hm)

/-- C4: soundness of both rotate-left formulations.  For every width `W ≥ 1`, every shift
amount `k`, every known-bits value `X` of width `W` and every concrete `W`-bit vector `v`
matching `X`, the concrete rotate-left of `v` by `k` (reduced modulo `W`) matches
`knownBitsRotateLeft X k` and matches `knownBitsRotateLeftDecomposed X k`. -/
theorem rotate_left_sound (W k : Nat) (hW : 1 ≤ W) (X : KnownBits) (v : APInt)
    (hX : X.IsW W) (hv : v.IsW W) (hm : KnownBits.Matches v X) :
    KnownBits.Matches (v.rotl k) (knownBitsRotateLeft X k) ∧
    KnownBits.Matches (v.rotl k) (knownBitsRotateLeftDecomposed X k) :=
  ⟨knownBitsRotateLeft_sound W k hW X v hX hv hm,
   knownBitsRotateLeftDecomposed_sound W k hW X v hX hv hm⟩

/-- Witness for C4 at width 4, shift 5 (reduced to 1): `v = 0b0110` matches
`X = (Zero 0b1000, One 0b0010)`. -/
theorem rotate_left_sound_witness :
    KnownBits.Matches (APInt.rotl ⟨4, 6⟩ 5) (knownBitsRotateLeft ⟨⟨4, 8⟩, ⟨4, 2⟩⟩ 5) ∧
    KnownBits.Matches (APInt.rotl ⟨4, 6⟩ 5)
      (knownBitsRotateLeftDecomposed ⟨⟨4, 8⟩, ⟨4, 2⟩⟩ 5) :=
  rotate_left_sound 4 5 (by decide) ⟨⟨4, 8⟩, ⟨4, 2⟩⟩ ⟨4, 6⟩ (by decide) (by decide)
    (by decide)

/-- Bit view of the concrete rotate-left: bit `(i + k) mod W` of the result is bit `i` of
the argument. -/
theorem rotl_testBit (W k : Nat) (hW : 1 ≤ W) (v : APInt) (hv : v.IsW W) (i : Nat)
    (hi : i < W) : (v.rotl k).val.testBit ((i + k) % W) = v.val.testBit i := by
  rw [rotl_eq_shl_or_lshr W k hW v hv]
  obtain ⟨hw, hlt⟩ := hv
  have hr : k % W < W := Nat.mod_lt _ (by omega)
  have hm : (i + k) % W < W := Nat.mod_lt _ (by omega)
  have hik : (i + k) % W = (i + k % W) % W := by simp [Nat.add_mod]
  simp only [APInt.or, Nat.testBit_or, testBit_shl, testBit_lshr, hw, hr, hm, decide_True,
    Bool.true_and]
  rw [hik]
  by_cases hc : i + k % W < W
  · rw [Nat.mod_eq_of_lt hc]
    have h1 : k % W ≤ i + k % W := by omega
    have h2 : i + k % W - k % W = i := by omega
    have h3 : v.val.testBit (W - k % W + (i + k % W)) = false :=
      testBit_eq_false_of_lt hlt (by omega)
    simp [h1, h2, h3]
  · have h1 : (i + k % W) % W = i + k % W - W := by
      rw [Nat.mod_eq_sub_mod (by omega), Nat.mod_eq_of_lt (by omega)]
    rw [h1]
    have h2 : ¬ k % W ≤ i + k % W - W := by omega
    have h3 : W - k % W < W := by omega
    have h4 : W - k % W + (i + k % W - W) = i := by omega
    simp [h2, h3, h4]

/-! ## Over-wide shifts -/

/-- C5, as stated, fails: at width 4 the shifts of `X = (Zero 0b1000, One 0b0010)` by
`k = 4` return the value with both masks 0, not the all-known-zero value
`(Zero 0b1111, One 0)`. -/
theorem overwide_shift_not_all_known_zero :
    (1 ≤ 4 ∧ KnownBits.IsW 4 ⟨⟨4, 8⟩, ⟨4, 2⟩⟩ ∧ 4 ≤ 4) ∧
    knownBitsShl ⟨⟨4, 8⟩, ⟨4, 2⟩⟩ 4 = ⟨⟨4, 0⟩, ⟨4, 0⟩⟩ ∧
    knownBitsShl ⟨⟨4, 8⟩, ⟨4, 2⟩⟩ 4 ≠ allKnownZero 4 ∧
    knownBitsLshr ⟨⟨4, 8⟩, ⟨4, 2⟩⟩ 4 = ⟨⟨4, 0⟩, ⟨4, 0⟩⟩ ∧
    knownBitsLshr ⟨⟨4, 8⟩, ⟨4, 2⟩⟩ 4 ≠ allKnownZero 4 := by
  decide

/-- C5, amended: for every width `W ≥ 1`, every known-bits value `X` of width `W` and
every shift amount `k ≥ W`, `knownBitsShl X k` and `knownBitsLshr X k` each return the
value of width `W` with both masks 0 (every output bit unknown). -/
theorem overwide_shift_all_unknown (W : Nat) (X : KnownBits) (k : Nat) (_hW : 1 ≤ W)
    (hX : X.IsW W) (hk : W ≤ k) :
    knownBitsShl X k = KnownBits.init W ∧ knownBitsLshr X k = KnownBits.init W := by
  have hz : X.Zero.BitWidth = W := hX.1.1
  unfold knownBitsShl knownBitsLshr
  simp only [KnownBits.getBitWidth, KnownBits.resetAll, KnownBits.init,
    APInt.clearAllBits, hz, if_pos hk, and_self]

/-- Witness for the amended C5 at width 4, `X = (Zero 0b1000, One 0b0010)`, `k = 4`. -/
theorem overwide_shift_all_unknown_witness :
    knownBitsShl ⟨⟨4, 8⟩, ⟨4, 2⟩⟩ 4 = KnownBits.init 4 ∧
    knownBitsLshr ⟨⟨4, 8⟩, ⟨4, 2⟩⟩ 4 = KnownBits.init 4 :=
  overwide_shift_all_unknown 4 ⟨⟨4, 8⟩, ⟨4, 2⟩⟩ 4 (by decide) (by decide) (by decide)

/-! ## The or transfer function -/

/-- C10: for known-bits values `A`, `B` of one width `W`, `knownBitsOr A B` has
`One = A.One | B.One` and `Zero = A.Zero & B.Zero` (and width `W`); for the 4-bit values
`A = (Zero 0b1000, One 0b0010)`, `B = (Zero 0b0100, One 0b0001)` the result is
`(Zero 0b0000, One 0b0011)`. -/
theorem knownBitsOr_masks (W : Nat) (A B : KnownBits) (hA : A.IsW W) (hB : B.IsW W) :
    (knownBitsOr A B).One.val = A.One.val ||| B.One.val ∧
    (knownBitsOr A B).Zero.val = A.Zero.val &&& B.Zero.val ∧
    (knownBitsOr A B).IsW W ∧
    knownBitsOr ⟨⟨4, 0b1000⟩, ⟨4, 0b0010⟩⟩ ⟨⟨4, 0b0100⟩, ⟨4, 0b0001⟩⟩ =
      ⟨⟨4, 0b0000⟩, ⟨4, 0b0011⟩⟩ := by
  refine ⟨rfl, rfl, ⟨⟨hA.1.1, ?_⟩, ⟨hA.2.1, ?_⟩⟩, by decide⟩
  · exact Nat.lt_of_le_of_lt Nat.and_le_left hA.1.2
  · exact Nat.or_lt_two_pow hA.2.2 hB.2.2

/-- Witness for C10 at the 4-bit values of the claim. -/
theorem knownBitsOr_masks_witness :
    (knownBitsOr ⟨⟨4, 8⟩, ⟨4, 2⟩⟩ ⟨⟨4, 4⟩, ⟨4, 1⟩⟩).One.val = 2 ||| 1 ∧
    (knownBitsOr ⟨⟨4, 8⟩, ⟨4, 2⟩⟩ ⟨⟨4, 4⟩, ⟨4, 1⟩⟩).Zero.val = 8 &&& 4 ∧
    (knownBitsOr ⟨⟨4, 8⟩, ⟨4, 2⟩⟩ ⟨⟨4, 4⟩, ⟨4, 1⟩⟩).IsW 4 ∧
    knownBitsOr ⟨⟨4, 0b1000⟩, ⟨4, 0b0010⟩⟩ ⟨⟨4, 0b0100⟩, ⟨4, 0b0001⟩⟩ =
      ⟨⟨4, 0b0000⟩, ⟨4, 0b0011⟩⟩ :=
  knownBitsOr_masks 4 ⟨⟨4, 8⟩, ⟨4, 2⟩⟩ ⟨⟨4, 4⟩, ⟨4, 1⟩⟩ (by decide) (by decide)

/-! ## Abstraction -/

theorem abstract_fold_bits (S : List APInt) (kz ko : APInt) (i : Nat) :
    ((S.foldl (fun (s : APInt × APInt) Val => (s.1.or Val.not, s.2.and Val)) (kz, ko)).1.val.testBit i
        = true ↔
      kz.val.testBit i = true ∨ ∃ v ∈ S, v.not.val.testBit i = true) ∧
    ((S.foldl (fun (s : APInt × APInt) Val => (s.1.or Val.not, s.2.and Val)) (kz, ko)).2.val.testBit i
        = true ↔
      ko.val.testBit i = true ∧ ∀ v ∈ S, v.val.testBit i = true) := by
  induction S generalizing kz ko with
  | nil => simp
  | cons x xs ih =>
    rw [List.foldl_cons]
    obtain ⟨h1, h2⟩ := ih (kz.or x.not) (ko.and x)
    rw [h1, h2]
    simp only [APInt.or, APInt.and, Nat.testBit_or, Nat.testBit_and, Bool.or_eq_true,
      Bool.and_eq_true, List.mem_cons, exists_eq_or_imp, forall_eq_or_imp]
    constructor
    · rw [or_assoc]
    · rw [and_assoc]

/-- What `abstractValues` computes on a non-empty set of `W`-bit values, `W ≤ 64`: bit
`i < W` of `One` is set iff bit `i` is 1 in every element, and bit `i < W` of `Zero` is
set iff bit `i` is 0 in some element (the accumulator starts at 0 and is or-ed with the
complement of each element). -/
theorem abstractValues_bits (W : Nat) (hW : W ≤ 64) (S : List APInt) (hne : S ≠ [])
    (hS : ∀ v ∈ S, v.IsW W) :
    ∃ R, abstractValues S = some R ∧
      ∀ i, i < W →
        (R.One.val.testBit i = true ↔ ∀ v ∈ S, v.val.testBit i = true) ∧
        (R.Zero.val.testBit i = true ↔ ∃ v ∈ S, v.val.testBit i = false) := by
  cases S with
  | nil => exact absurd rfl hne
  | cons x xs =>
    refine ⟨_, rfl, ?_⟩
    intro i hi
    have hx : x.BitWidth = W := (hS x (List.mem_cons_self _ _)).1
    obtain ⟨h1, h2⟩ := abstract_fold_bits (x :: xs) (APInt.ofU64 x.getBitWidth 0)
      (APInt.ofU64 x.getBitWidth (2 ^ 64 - 1)) i
    refine ⟨?_, ?_⟩
    · rw [h2]
      have hall : (2 ^ 64 - 1) % 2 ^ W = 2 ^ W - 1 := by
        have h64 : (2 : Nat) ^ 64 = 2 ^ W * 2 ^ (64 - W) := by
          rw [← Nat.pow_add]; congr 1; omega
        have hpos : 0 < 2 ^ W := Nat.pow_pos (by decide)
        have hpos2 : 0 < 2 ^ (64 - W) := Nat.pow_pos (by decide)
        obtain ⟨m, hm⟩ : ∃ m, 2 ^ (64 - W) = m + 1 := ⟨2 ^ (64 - W) - 1, by omega⟩
        rw [h64, hm, Nat.mul_succ]
        have : 2 ^ W * m + 2 ^ W - 1 = (2 ^ W - 1) + 2 ^ W * m := by omega
        rw [this, Nat.add_mul_mod_self_left, Nat.mod_eq_of_lt (by omega)]
      simp only [APInt.ofU64, APInt.getBitWidth, hx, hall, Nat.testBit_two_pow_sub_one, hi,
        decide_True, true_and]
    · rw [h1]
      simp only [APInt.ofU64, Nat.zero_mod, Nat.zero_testBit, Bool.false_eq_true, false_or,
        APInt.not,
        Nat.testBit_xor, Nat.testBit_two_pow_sub_one]
      constructor
      · rintro ⟨v, hv, hb⟩
        refine ⟨v, hv, ?_⟩
        rw [(hS v hv).1] at hb
        simpa [hi] using hb
      · rintro ⟨v, hv, hb⟩
        refine ⟨v, hv, ?_⟩
        rw [(hS v hv).1]
        simp [hi, hb]

/-- C1 at the failing input: the 1-bit value with both masks 0 (the bit unknown)
concretizes to the set of 0 and 1, and `abstractValues` of that set is
`(Zero 1, One 0)`, not the value that was concretized. -/
theorem round_trip_fails_on_unknown_bit :
    concretizeKnownBits ⟨⟨1, 0⟩, ⟨1, 0⟩⟩ [] = some [⟨1, 0⟩, ⟨1, 1⟩] ∧
    abstractValues [⟨1, 0⟩, ⟨1, 1⟩] = some ⟨⟨1, 1⟩, ⟨1, 0⟩⟩ ∧
    (concretizeKnownBits ⟨⟨1, 0⟩, ⟨1, 0⟩⟩ []).bind abstractValues ≠
      some ⟨⟨1, 0⟩, ⟨1, 0⟩⟩ := by
  decide

/-- C2 at the failing input: for the set of the 2-bit values `0b01` and `0b10`,
`abstractValues` returns `Zero = 0b11`, `One = 0b00`; bit 0 of `Zero` is set although
bit 0 of `0b01` is 1, and neither element matches the result. -/
theorem abstractValues_zero_mask_not_join :
    abstractValues [⟨2, 1⟩, ⟨2, 2⟩] = some ⟨⟨2, 3⟩, ⟨2, 0⟩⟩ ∧
    (⟨2, 3⟩ : APInt).val.testBit 0 = true ∧ (⟨2, 1⟩ : APInt).val.testBit 0 = true ∧
    ¬ KnownBits.Matches ⟨2, 1⟩ ⟨⟨2, 3⟩, ⟨2, 0⟩⟩ ∧
    ¬ KnownBits.Matches ⟨2, 2⟩ ⟨⟨2, 3⟩, ⟨2, 0⟩⟩ := by
  decide

/-! ## Enumerator -/

theorem numValues3_succ (W : Nat) : numValues3 (W + 1) = numValues3 W * 3 % 2 ^ 64 := by
  unfold numValues3
  rw [List.range_succ, List.foldl_append]
  rfl

theorem numValues3_mod (W : Nat) : numValues3 W = 3 ^ W % 2 ^ 64 := by
  induction W with
  | zero => rfl
  | succ n ih => rw [numValues3_succ, ih, Nat.mod_mul_mod, ← Nat.pow_succ]

theorem numValues3_eq (W : Nat) (hW : W ≤ 40) : numValues3 W = 3 ^ W := by
  rw [numValues3_mod]
  apply Nat.mod_eq_of_lt
  calc 3 ^ W ≤ 3 ^ 40 := Nat.pow_le_pow_right (by decide) hW
    _ < 2 ^ 64 := by norm_num

theorem div_pow_three_succ (idx q : Nat) : idx / 3 / 3 ^ q = idx / 3 ^ (q + 1) := by
  rw [Nat.div_div_eq_div_mul, Nat.pow_succ, Nat.mul_comm]

theorem genBits_spec (n : Nat) : ∀ (bit : Nat) (KB : KnownBits) (idx : Nat),
    (genBits n bit KB idx).2 = false ∧
    (genBits n bit KB idx).1.Zero.BitWidth = KB.Zero.BitWidth ∧
    (genBits n bit KB idx).1.One.BitWidth = KB.One.BitWidth ∧
    ∀ p,
      ((genBits n bit KB idx).1.Zero.val.testBit p =
        if bit ≤ p ∧ p < bit + n then decide (idx / 3 ^ (p - bit) % 3 = 1)
        else KB.Zero.val.testBit p) ∧
      ((genBits n bit KB idx).1.One.val.testBit p =
        if bit ≤ p ∧ p < bit + n then decide (idx / 3 ^ (p - bit) % 3 = 2)
        else KB.One.val.testBit p) := by
  induction n with
  | zero =>
    intro bit KB idx
    refine ⟨rfl, rfl, rfl, fun p => ?_⟩
    have : ¬ (bit ≤ p ∧ p < bit) := by omega
    simp [genBits, this]
  | succ n ih =>
    intro bit KB idx
    have hcase : idx % 3 = 0 ∨ idx % 3 = 1 ∨ idx % 3 = 2 := by omega
    -- the masks after the assignment of position `bit`
    obtain ⟨KB1, hKB1, hz, ho, hzw, how⟩ : ∃ KB1 : KnownBits,
        genBits (n + 1) bit KB idx = genBits n (bit + 1) KB1 (idx / 3) ∧
        (∀ p, KB1.Zero.val.testBit p =
          if p = bit then decide (idx % 3 = 1) else KB.Zero.val.testBit p) ∧
        (∀ p, KB1.One.val.testBit p =
          if p = bit then decide (idx % 3 = 2) else KB.One.val.testBit p) ∧
        KB1.Zero.BitWidth = KB.Zero.BitWidth ∧ KB1.One.BitWidth = KB.One.BitWidth := by
      rcases hcase with h | h | h
      · refine ⟨⟨KB.Zero.clearBit bit, KB.One.clearBit bit⟩, ?_, ?_, ?_, rfl, rfl⟩
        · simp [genBits, h, APInt.get, testBit_clearBit]
        · intro p
          by_cases hp : p = bit
          · simp [testBit_clearBit, hp, h]
          · have : ¬ bit = p := fun e => hp e.symm
            simp [testBit_clearBit, hp, this]
        · intro p
          by_cases hp : p = bit
          · simp [testBit_clearBit, hp, h]
          · have : ¬ bit = p := fun e => hp e.symm
            simp [testBit_clearBit, hp, this]
      · refine ⟨⟨KB.Zero.setBit bit, KB.One.clearBit bit⟩, ?_, ?_, ?_, rfl, rfl⟩
        · simp [genBits, h, APInt.get, testBit_clearBit]
        · intro p
          by_cases hp : p = bit
          · simp [testBit_setBit, hp, h]
          · have : ¬ bit = p := fun e => hp e.symm
            simp [testBit_setBit, hp, this]
        · intro p
          by_cases hp : p = bit
          · simp [testBit_clearBit, hp, h]
          · have : ¬ bit = p := fun e => hp e.symm
            simp [testBit_clearBit, hp, this]
      · refine ⟨⟨KB.Zero.clearBit bit, KB.One.setBit bit⟩, ?_, ?_, ?_, rfl, rfl⟩
        · simp [genBits, h, APInt.get, testBit_clearBit]
        · intro p
          by_cases hp : p = bit
          · simp [testBit_clearBit, hp, h]
          · have : ¬ bit = p := fun e => hp e.symm
            simp [testBit_clearBit, hp, this]
        · intro p
          by_cases hp : p = bit
          · simp [testBit_setBit, hp, h]
          · have : ¬ bit = p := fun e => hp e.symm
            simp [testBit_setBit, hp, this]
    obtain ⟨i1, i2, i3, i4⟩ := ih (bit + 1) KB1 (idx / 3)
    rw [hKB1]
    refine ⟨i1, i2.trans hzw, i3.trans how, fun p => ?_⟩
    rw [(i4 p).1, (i4 p).2, hz p, ho p]
    by_cases hp : p = bit
    · subst hp
      have h1 : ¬ (p + 1 ≤ p ∧ p < p + 1 + n) := by omega
      have h2 : p ≤ p ∧ p < p + (n + 1) := by omega
      simp [h1, h2]
    · by_cases hr : bit + 1 ≤ p ∧ p < bit + 1 + n
      · have h2 : bit ≤ p ∧ p < bit + (n + 1) := by omega
        have h3 : p - bit = (p - (bit + 1)) + 1 := by omega
        simp only [hr, h2, and_self, if_true, h3, div_pow_three_succ]
      · have h2 : ¬ (bit ≤ p ∧ p < bit + (n + 1)) := by omega
        simp [hr, h2, hp]

theorem genValue_bits (W i p : Nat) :
    ((genValue W i).Zero.val.testBit p = (decide (p < W) && decide (i / 3 ^ p % 3 = 1))) ∧
    ((genValue W i).One.val.testBit p = (decide (p < W) && decide (i / 3 ^ p % 3 = 2))) := by
  obtain ⟨-, -, -, h⟩ := genBits_spec W 0 (KnownBits.init W) i
  unfold genValue
  rw [(h p).1, (h p).2]
  by_cases hp : p < W
  · simp [hp]
  · simp [hp, KnownBits.init]

theorem genValue_width (W i : Nat) :
    (genValue W i).Zero.BitWidth = W ∧ (genValue W i).One.BitWidth = W := by
  obtain ⟨-, h1, h2, -⟩ := genBits_spec W 0 (KnownBits.init W) i
  exact ⟨h1, h2⟩

theorem genValue_isW (W i : Nat) : (genValue W i).IsW W := by
  refine ⟨⟨(genValue_width W i).1, ?_⟩, ⟨(genValue_width W i).2, ?_⟩⟩
  · apply Nat.lt_pow_two_of_testBit
    intro p hp
    have : ¬ p < W := by omega
    simp [(genValue_bits W i p).1, this]
  · apply Nat.lt_pow_two_of_testBit
    intro p hp
    have : ¬ p < W := by omega
    simp [(genValue_bits W i p).2, this]

theorem genValue_wellFormed (W i : Nat) : (genValue W i).WellFormed := by
  unfold KnownBits.WellFormed
  rw [and_eq_zero_iff_bits]
  intro p hp
  rw [(genValue_bits W i p).1] at hp
  rw [(genValue_bits W i p).2]
  simp only [Bool.and_eq_true, decide_eq_true_eq] at hp
  have : ¬ i / 3 ^ p % 3 = 2 := by omega
  simp [this]

theorem genStep_eq (W : Nat) (L : List KnownBits) (i : Nat) :
    genStep W L i = L ++ [genValue W i] := by
  unfold genStep genValue
  simp [(genBits_spec W 0 (KnownBits.init W) i).1]

theorem foldl_genStep (W : Nat) (xs : List Nat) :
    ∀ L : List KnownBits, xs.foldl (genStep W) L = L ++ xs.map (genValue W) := by
  induction xs with
  | nil => intro L; simp
  | cons x xs ih => intro L; rw [List.foldl_cons, ih, genStep_eq]; simp

theorem generateAllKnownBits_eq (W : Nat) (hW : W ≤ 40) (L : List KnownBits) :
    generateAllKnownBits W L = L ++ (List.range (3 ^ W)).map (genValue W) := by
  unfold generateAllKnownBits
  rw [numValues3_eq W hW, foldl_genStep]

theorem tritEncode_lt (n : Nat) : ∀ Z O : Nat, tritEncode n Z O < 3 ^ n := by
  induction n with
  | zero => intro Z O; simp [tritEncode]
  | succ n ih =>
    intro Z O
    have h := ih (Z / 2) (O / 2)
    unfold tritEncode
    rw [Nat.pow_succ]
    split_ifs <;> omega

theorem tritEncode_digit (n : Nat) : ∀ (Z O p : Nat), p < n →
    tritEncode n Z O / 3 ^ p % 3 =
      if Z.testBit p then 1 else if O.testBit p then 2 else 0 := by
  induction n with
  | zero => intro Z O p hp; omega
  | succ n ih =>
    intro Z O p hp
    cases p with
    | zero =>
      unfold tritEncode
      rw [Nat.pow_zero, Nat.div_one]
      split_ifs <;> omega
    | succ q =>
      have h := ih (Z / 2) (O / 2) q (by omega)
      rw [Nat.testBit_div_two, Nat.testBit_div_two] at h
      rw [← div_pow_three_succ, ← h]
      congr 2
      have he : tritEncode (n + 1) Z O =
          (if Z.testBit 0 then 1 else if O.testBit 0 then 2 else 0) +
            3 * tritEncode n (Z / 2) (O / 2) := rfl
      rw [he]
      split_ifs <;> omega

theorem digits_ext (n : Nat) : ∀ i j : Nat, i < 3 ^ n → j < 3 ^ n →
    (∀ p, p < n → i / 3 ^ p % 3 = j / 3 ^ p % 3) → i = j := by
  induction n with
  | zero => intro i j hi hj _; simp at hi hj; omega
  | succ n ih =>
    intro i j hi hj h
    rw [Nat.pow_succ] at hi hj
    have h0 := h 0 (by omega)
    rw [Nat.pow_zero, Nat.div_one, Nat.div_one] at h0
    have hrec : i / 3 = j / 3 := by
      apply ih (i / 3) (j / 3) (by omega) (by omega)
      intro p hp
      rw [div_pow_three_succ, div_pow_three_succ]
      exact h (p + 1) (by omega)
    omega

theorem genValue_inj (W i j : Nat) (hi : i < 3 ^ W) (hj : j < 3 ^ W)
    (h : genValue W i = genValue W j) : i = j := by
  apply digits_ext W i j hi hj
  intro p hp
  have hz := (genValue_bits W i p).1
  have ho := (genValue_bits W i p).2
  rw [h, (genValue_bits W j p).1] at hz
  rw [h, (genValue_bits W j p).2] at ho
  simp only [hp, decide_True, Bool.true_and, decide_eq_decide] at hz ho
  have hi3 : i / 3 ^ p % 3 < 3 := Nat.mod_lt _ (by decide)
  have hj3 : j / 3 ^ p % 3 < 3 := Nat.mod_lt _ (by decide)
  omega

theorem genValue_tritEncode (W : Nat) (X : KnownBits) (hX : X.IsW W) (hwf : X.WellFormed) :
    genValue W (tritEncode W X.Zero.val X.One.val) = X := by
  obtain ⟨⟨hzw, hzlt⟩, ⟨how, holt⟩⟩ := hX
  unfold KnownBits.WellFormed at hwf
  rw [and_eq_zero_iff_bits] at hwf
  have hw := genValue_width W (tritEncode W X.Zero.val X.One.val)
  have hZ : (genValue W (tritEncode W X.Zero.val X.One.val)).Zero.val = X.Zero.val := by
    apply Nat.eq_of_testBit_eq
    intro p
    rw [(genValue_bits W _ p).1]
    by_cases hp : p < W
    · rw [tritEncode_digit W _ _ p hp]
      cases hz : X.Zero.val.testBit p
      · cases X.One.val.testBit p <;> simp [hp]
      · simp [hp]
    · rw [testBit_eq_false_of_lt hzlt (by omega)]
      simp [hp]
  have hO : (genValue W (tritEncode W X.Zero.val X.One.val)).One.val = X.One.val := by
    apply Nat.eq_of_testBit_eq
    intro p
    rw [(genValue_bits W _ p).2]
    by_cases hp : p < W
    · rw [tritEncode_digit W _ _ p hp]
      cases hz : X.Zero.val.testBit p
      · cases X.One.val.testBit p <;> simp [hp]
      · simp [hp, hwf p hz]
    · rw [testBit_eq_false_of_lt holt (by omega)]
      simp [hp]
  generalize genValue W (tritEncode W X.Zero.val X.One.val) = Y at hw hZ hO
  obtain ⟨⟨zw, zv⟩, ⟨ow, ov⟩⟩ := Y
  obtain ⟨⟨xzw, xzv⟩, ⟨xow, xov⟩⟩ := X
  simp only at hw hZ hO hzw how
  obtain ⟨h1, h2⟩ := hw
  subst h1 hZ hO hzw
  subst how
  rw [h2]

/-- C8: enumerator completeness.  For every `BitWidth W ≤ 40`, the values that
`generateAllKnownBits W` appends to an empty vector are exactly the well-formed
known-bits values of width `W`: a value is produced iff its masks are `W`-bit masks with
no bit set in both. -/
theorem generateAllKnownBits_exact (W : Nat) (hW : W ≤ 40) (X : KnownBits) :
    X ∈ generateAllKnownBits W [] ↔ (X.IsW W ∧ X.WellFormed) := by
  rw [generateAllKnownBits_eq W hW, List.nil_append, List.mem_map]
  constructor
  · rintro ⟨i, -, rfl⟩
    exact ⟨genValue_isW W i, genValue_wellFormed W i⟩
  · rintro ⟨hX, hwf⟩
    exact ⟨tritEncode W X.Zero.val X.One.val, List.mem_range.mpr (tritEncode_lt W _ _),
      genValue_tritEncode W X hX hwf⟩

/-- Witness for C8 at width 4: `(Zero 0b1000, One 0b0010)` is produced. -/
theorem generateAllKnownBits_exact_witness :
    (⟨⟨4, 8⟩, ⟨4, 2⟩⟩ : KnownBits) ∈ generateAllKnownBits 4 [] ↔
      (KnownBits.IsW 4 ⟨⟨4, 8⟩, ⟨4, 2⟩⟩ ∧ KnownBits.WellFormed ⟨⟨4, 8⟩, ⟨4, 2⟩⟩) :=
  generateAllKnownBits_exact 4 (by decide) ⟨⟨4, 8⟩, ⟨4, 2⟩⟩

/-- C9: enumerator count.  For every `BitWidth W ≤ 40`, `generateAllKnownBits W` appends
exactly `3 ^ W` values to an empty vector, no index sets the `Overlap` flag, and the
values are pairwise distinct; for `W = 4` there are 81. -/
theorem generateAllKnownBits_count (W : Nat) (hW : W ≤ 40) :
    (generateAllKnownBits W []).length = 3 ^ W ∧
    (∀ i, (genBits W 0 (KnownBits.init W) i).2 = false) ∧
    (generateAllKnownBits W []).Nodup ∧
    (generateAllKnownBits 4 []).length = 81 := by
  refine ⟨?_, fun i => (genBits_spec W 0 (KnownBits.init W) i).1, ?_, ?_⟩
  · rw [generateAllKnownBits_eq W hW]
    simp
  · rw [generateAllKnownBits_eq W hW, List.nil_append]
    apply List.Nodup.map_on _ (List.nodup_range _)
    intro i hi j hj h
    exact genValue_inj W i j (List.mem_range.mp hi) (List.mem_range.mp hj) h
  · rw [generateAllKnownBits_eq 4 (by decide)]
    simp

/-- Witness for C9 at width 4. -/
theorem generateAllKnownBits_count_witness :
    (generateAllKnownBits 4 []).length = 3 ^ 4 ∧
    (∀ i, (genBits 4 0 (KnownBits.init 4) i).2 = false) ∧
    (generateAllKnownBits 4 []).Nodup ∧
    (generateAllKnownBits 4 []).length = 81 :=
  generateAllKnownBits_count 4 (by decide)

/-! ## Concretization -/

theorem eq_of_not_ult (x y : APInt) (hw : y.BitWidth = x.BitWidth)
    (h1 : ¬ x.ult y = true) (h2 : ¬ y.ult x = true) : x = y := by
  simp only [APInt.ult, decide_eq_true_eq] at h1 h2
  cases x; cases y
  simp only at hw h1 h2
  simp only [APInt.mk.injEq]
  omega

theorem mem_setInsert (x a : APInt) (S : List APInt)
    (hS : ∀ y ∈ S, y.BitWidth = x.BitWidth) :
    a ∈ setInsert x S ↔ a = x ∨ a ∈ S := by
  induction S with
  | nil => simp [setInsert]
  | cons y ys ih =>
    have hy : y.BitWidth = x.BitWidth := hS y (List.mem_cons_self _ _)
    have ih2 := ih (fun z hz => hS z (List.mem_cons_of_mem _ hz))
    unfold setInsert
    by_cases h1 : x.ult y = true
    · rw [if_pos h1, List.mem_cons]
    · rw [if_neg h1]
      by_cases h2 : y.ult x = true
      · rw [if_pos h2, List.mem_cons, ih2, List.mem_cons]
        tauto
      · rw [if_neg h2, List.mem_cons, eq_of_not_ult x y hy h1 h2]
        tauto

theorem length_setInsert (x : APInt) (S : List APInt)
    (hS : ∀ y ∈ S, y.BitWidth = x.BitWidth) (hx : x ∉ S) :
    (setInsert x S).length = S.length + 1 := by
  induction S with
  | nil => simp [setInsert]
  | cons y ys ih =>
    have hy : y.BitWidth = x.BitWidth := hS y (List.mem_cons_self _ _)
    have hne : x ≠ y := fun e => hx (e ▸ List.mem_cons_self _ _)
    have ih2 := ih (fun z hz => hS z (List.mem_cons_of_mem _ hz))
      (fun hm => hx (List.mem_cons_of_mem _ hm))
    unfold setInsert
    by_cases h1 : x.ult y = true
    · rw [if_pos h1]; rfl
    · rw [if_neg h1]
      by_cases h2 : y.ult x = true
      · rw [if_pos h2, List.length_cons, ih2, List.length_cons]
      · exact absurd (eq_of_not_ult x y hy h1 h2) hne

theorem insertAll_spec (W : Nat) (f : Nat → APInt) (hf : ∀ i, (f i).BitWidth = W) (N : Nat) :
    (∀ a, a ∈ (List.range N).foldl (fun S i => setInsert (f i) S) [] ↔ ∃ i, i < N ∧ f i = a) ∧
    ((∀ i j, i < N → j < N → f i = f j → i = j) →
      ((List.range N).foldl (fun S i => setInsert (f i) S) []).length = N) := by
  induction N with
  | zero => simp
  | succ n ih =>
    rw [List.range_succ, List.foldl_append, List.foldl_cons, List.foldl_nil]
    obtain ⟨ih1, ih2⟩ := ih
    have hw : ∀ y ∈ (List.range n).foldl (fun S i => setInsert (f i) S) [],
        y.BitWidth = (f n).BitWidth := by
      intro y hy
      obtain ⟨i, -, rfl⟩ := (ih1 y).mp hy
      rw [hf, hf]
    constructor
    · intro a
      rw [mem_setInsert _ _ _ hw, ih1]
      constructor
      · rintro (h | ⟨i, hi, h⟩)
        · exact ⟨n, by omega, h.symm⟩
        · exact ⟨i, by omega, h⟩
      · rintro ⟨i, hi, h⟩
        by_cases hin : i = n
        · subst hin; exact Or.inl h.symm
        · exact Or.inr ⟨i, by omega, h⟩
    · intro hinj
      rw [length_setInsert _ _ hw, ih2 (fun i j hi hj h => hinj i j (by omega) (by omega) h)]
      intro hm
      obtain ⟨i, hi, h⟩ := (ih1 _).mp hm
      have := hinj i n (by omega) (by omega) h
      omega

theorem and_one_shiftLeft_ne_zero (i j : Nat) : i &&& (1 <<< j) ≠ 0 ↔ i.testBit j = true := by
  rw [Nat.one_shiftLeft, Ne, and_eq_zero_iff_bits]
  constructor
  · intro h
    by_contra hc
    apply h
    intro p hp
    by_cases hpj : j = p
    · subst hpj; exact absurd hp hc
    · exact Nat.testBit_two_pow_of_ne hpj
  · intro h hc
    have := hc j h
    rw [Nat.testBit_two_pow_self] at this
    cases this

theorem concretizeScan_spec (W : Nat) (Z O : APInt) (n : Nat) :
    ((List.range n).foldl (concretizeScanStep Z O) (APInt.ofU64 W 0, 0, [])).1.BitWidth = W ∧
    (∀ p, ((List.range n).foldl (concretizeScanStep Z O)
        (APInt.ofU64 W 0, 0, [])).1.val.testBit p = (decide (p < n) && O.val.testBit p)) ∧
    ((List.range n).foldl (concretizeScanStep Z O) (APInt.ofU64 W 0, 0, [])).2.1 =
      ((List.range n).foldl (concretizeScanStep Z O) (APInt.ofU64 W 0, 0, [])).2.2.length ∧
    ((List.range n).foldl (concretizeScanStep Z O) (APInt.ofU64 W 0, 0, [])).2.2 =
      (List.range n).filter (fun i => !Z.get i && !O.get i) := by
  induction n with
  | zero => simp [APInt.ofU64]
  | succ n ih =>
    rw [List.range_succ, List.foldl_append, List.foldl_cons, List.foldl_nil, List.filter_append]
    generalize (List.range n).foldl (concretizeScanStep Z O) (APInt.ofU64 W 0, 0, []) = s at ih
    obtain ⟨h1, h2, h3, h4⟩ := ih
    have hlt : ∀ p, p ≠ n → decide (p < n + 1) = decide (p < n) := by
      intro p hp
      by_cases hp2 : p < n
      · have : p < n + 1 := by omega
        simp [hp2, this]
      · have : ¬ p < n + 1 := by omega
        simp [hp2, this]
    unfold concretizeScanStep
    by_cases hu : (!Z.get n && !O.get n) = true
    · have hO : O.val.testBit n = false := by
        simp only [APInt.get, Bool.and_eq_true, Bool.not_eq_true'] at hu
        exact hu.2
      rw [if_pos hu]
      refine ⟨h1, fun p => ?_, ?_, ?_⟩
      · rw [h2 p]
        by_cases hp : p = n
        · subst hp; simp [hO]
        · rw [hlt p hp]
      · simp [h3]
      · simp [h4, hu]
    · rw [if_neg hu]
      by_cases hO : O.get n = true
      · rw [if_pos hO]
        refine ⟨h1, fun p => ?_, h3, ?_⟩
        · rw [testBit_setBit, h2 p]
          by_cases hp : p = n
          · subst hp
            simp only [APInt.get] at hO
            simp [hO]
          · have hnp : ¬ n = p := fun e => hp e.symm
            rw [hlt p hp]
            simp [hnp]
        · simp [h4, hu]
      · rw [if_neg hO]
        refine ⟨h1, fun p => ?_, h3, ?_⟩
        · rw [h2 p]
          by_cases hp : p = n
          · subst hp
            simp only [APInt.get, Bool.not_eq_true] at hO
            simp [hO]
          · rw [hlt p hp]
        · simp [h4, hu]

theorem concretizeBitStep_bits (P : List Nat) (i : Nat) (cv : APInt) (j p : Nat) :
    (concretizeBitStep P i cv j).val.testBit p =
      if p = P.getD j 0 then i.testBit j else cv.val.testBit p := by
  simp only [concretizeBitStep]
  generalize P.getD j 0 = q
  by_cases hb : i.testBit j = true
  · have hc : i &&& (1 <<< j) ≠ 0 := (and_one_shiftLeft_ne_zero i j).mpr hb
    rw [if_pos hc, testBit_setBit]
    by_cases hp : p = q
    · simp [hp, hb]
    · have : ¬ q = p := fun e => hp e.symm
      simp [hp, this]
  · have hc : ¬ (i &&& (1 <<< j) ≠ 0) := fun h => hb ((and_one_shiftLeft_ne_zero i j).mp h)
    rw [if_neg hc, testBit_clearBit]
    by_cases hp : p = q
    · simp only [Bool.not_eq_true] at hb
      simp [hp, hb]
    · have : ¬ q = p := fun e => hp e.symm
      simp [hp, this]

theorem concretizeBitStep_width (P : List Nat) (i : Nat) (cv : APInt) (j : Nat) :
    (concretizeBitStep P i cv j).BitWidth = cv.BitWidth := by
  unfold concretizeBitStep
  split_ifs <;> rfl

theorem concretizeFold_spec (P : List Nat) (hP : P.Nodup) (V : APInt) (i n : Nat)
    (hn : n ≤ P.length) :
    ((List.range n).foldl (concretizeBitStep P i) V).BitWidth = V.BitWidth ∧
    (∀ j, j < n →
      ((List.range n).foldl (concretizeBitStep P i) V).val.testBit (P.getD j 0) = i.testBit j) ∧
    (∀ p, (∀ j, j < n → P.getD j 0 ≠ p) →
      ((List.range n).foldl (concretizeBitStep P i) V).val.testBit p = V.val.testBit p) := by
  induction n with
  | zero => simp
  | succ n ih =>
    rw [List.range_succ, List.foldl_append, List.foldl_cons, List.foldl_nil]
    obtain ⟨h1, h2, h3⟩ := ih (by omega)
    refine ⟨by rw [concretizeBitStep_width, h1], ?_, ?_⟩
    · intro j hj
      rw [concretizeBitStep_bits]
      by_cases hjn : j = n
      · subst hjn; simp
      · have hne : P.getD j 0 ≠ P.getD n 0 := by
          rw [List.getD_eq_getElem _ _ (by omega : j < P.length),
            List.getD_eq_getElem _ _ (by omega : n < P.length)]
          intro e
          exact hjn ((List.Nodup.getElem_inj_iff hP).mp e)
        rw [if_neg hne]
        exact h2 j (by omega)
    · intro p hp
      rw [concretizeBitStep_bits, if_neg (fun e => hp n (by omega) e.symm)]
      exact h3 p (fun j hj => hp j (by omega))

theorem concretizeValue_spec (P : List Nat) (hP : P.Nodup) (V : APInt) (i : Nat) :
    (concretizeValue V P i).BitWidth = V.BitWidth ∧
    (∀ j, j < P.length → (concretizeValue V P i).val.testBit (P.getD j 0) = i.testBit j) ∧
    (∀ p, p ∉ P → (concretizeValue V P i).val.testBit p = V.val.testBit p) := by
  obtain ⟨h1, h2, h3⟩ := concretizeFold_spec P hP V i P.length (Nat.le_refl _)
  refine ⟨h1, h2, fun p hp => h3 p (fun j hj e => hp ?_)⟩
  rw [← e, List.getD_eq_getElem _ _ hj]
  exact List.getElem_mem _

theorem packBits_lt (v : Nat) (P : List Nat) : packBits v P < 2 ^ P.length := by
  induction P with
  | nil => simp [packBits]
  | cons p ps ih =>
    unfold packBits
    rw [List.length_cons, Nat.pow_succ]
    split_ifs <;> omega

theorem packBits_testBit (v : Nat) (P : List Nat) :
    ∀ j, j < P.length → (packBits v P).testBit j = v.testBit (P.getD j 0) := by
  induction P with
  | nil => intro j hj; simp at hj
  | cons p ps ih =>
    intro j hj
    have he : packBits v (p :: ps) = (if v.testBit p then 1 else 0) + 2 * packBits v ps := rfl
    cases j with
    | zero =>
      rw [he, Nat.testBit_zero]
      simp only [List.getD_cons_zero]
      cases v.testBit p
      · simp
      · simp
    | succ q =>
      rw [Nat.testBit_succ, List.getD_cons_succ, ← ih q (by simpa using hj), he]
      congr 1
      split_ifs <;> omega

theorem numUnknown_eq (W : Nat) (X : KnownBits) :
    numUnknown W X =
      ((List.range W).filter (fun i => !X.Zero.get i && !X.One.get i)).length := by
  unfold numUnknown
  rw [Finset.card_def]
  simp only [Finset.filter_val, Finset.range_val, Multiset.range, Multiset.filter_coe,
    Multiset.coe_card]
  congr 1
  apply List.filter_congr
  intro i _
  simp [APInt.get]

theorem concretizeKnownBits_eq (W : Nat) (hW : W < 64) (X : KnownBits) (hX : X.IsW W) :
    ∃ V : APInt, V.BitWidth = W ∧
      (∀ p, V.val.testBit p = (decide (p < W) && X.One.val.testBit p)) ∧
      concretizeKnownBits X [] =
        some ((List.range
            (2 ^ ((List.range W).filter (fun i => !X.Zero.get i && !X.One.get i)).length)).foldl
          (fun S i => setInsert (concretizeValue V
            ((List.range W).filter (fun i => !X.Zero.get i && !X.One.get i)) i) S) []) := by
  obtain ⟨h1, h2, h3, h4⟩ := concretizeScan_spec W X.Zero X.One W
  refine ⟨_, h1, h2, ?_⟩
  have hlen : ((List.range W).filter (fun i => !X.Zero.get i && !X.One.get i)).length ≤ W := by
    calc _ ≤ (List.range W).length := List.length_filter_le _ _
      _ = W := List.length_range W
  unfold concretizeKnownBits concretizeScan
  simp only [KnownBits.getBitWidth, hX.1.1]
  rw [h3, h4, if_neg (by omega), Nat.one_shiftLeft]

theorem mem_unknownPositions (W : Nat) (X : KnownBits) (p : Nat) :
    p ∈ (List.range W).filter (fun i => !X.Zero.get i && !X.One.get i) ↔
      p < W ∧ X.Zero.val.testBit p = false ∧ X.One.val.testBit p = false := by
  simp [List.mem_filter, APInt.get]

theorem concretizeValue_matches (W : Nat) (X : KnownBits) (hX : X.IsW W) (hwf : X.WellFormed)
    (V : APInt) (hVw : V.BitWidth = W)
    (hV : ∀ p, V.val.testBit p = (decide (p < W) && X.One.val.testBit p)) (i : Nat) :
    (concretizeValue V ((List.range W).filter (fun i => !X.Zero.get i && !X.One.get i)) i).IsW W ∧
    KnownBits.Matches
      (concretizeValue V ((List.range W).filter (fun i => !X.Zero.get i && !X.One.get i)) i) X := by
  have hP : ((List.range W).filter (fun i => !X.Zero.get i && !X.One.get i)).Nodup :=
    List.Nodup.filter _ (List.nodup_range W)
  obtain ⟨c1, -, c3⟩ := concretizeValue_spec _ hP V i
  obtain ⟨⟨hzw, hzlt⟩, ⟨how, holt⟩⟩ := hX
  unfold KnownBits.WellFormed at hwf
  rw [and_eq_zero_iff_bits] at hwf
  refine ⟨⟨c1.trans hVw, ?_⟩, ?_⟩
  · apply Nat.lt_pow_two_of_testBit
    intro p hp
    have hnm : p ∉ (List.range W).filter (fun i => !X.Zero.get i && !X.One.get i) := by
      rw [mem_unknownPositions]; omega
    rw [c3 p hnm, hV p]
    have : ¬ p < W := by omega
    simp [this]
  · rw [matches_iff_bits]
    intro p
    constructor
    · intro hz
      have hnm : p ∉ (List.range W).filter (fun i => !X.Zero.get i && !X.One.get i) := by
        rw [mem_unknownPositions]
        rintro ⟨-, h, -⟩
        rw [h] at hz; cases hz
      rw [c3 p hnm, hV p, hwf p hz, Bool.and_false]
    · intro ho
      have hnm : p ∉ (List.range W).filter (fun i => !X.Zero.get i && !X.One.get i) := by
        rw [mem_unknownPositions]
        rintro ⟨-, -, h⟩
        rw [h] at ho; cases ho
      have hp : p < W := by
        by_contra hc
        rw [testBit_eq_false_of_lt holt (by omega)] at ho
        cases ho
      rw [c3 p hnm, hV p, ho]
      simp [hp]

theorem concretizeValue_packBits (W : Nat) (X : KnownBits)
    (V : APInt) (hVw : V.BitWidth = W)
    (hV : ∀ p, V.val.testBit p = (decide (p < W) && X.One.val.testBit p))
    (v : APInt) (hv : v.IsW W) (hm : KnownBits.Matches v X) :
    concretizeValue V ((List.range W).filter (fun i => !X.Zero.get i && !X.One.get i))
      (packBits v.val ((List.range W).filter (fun i => !X.Zero.get i && !X.One.get i))) = v := by
  have hP : ((List.range W).filter (fun i => !X.Zero.get i && !X.One.get i)).Nodup :=
    List.Nodup.filter _ (List.nodup_range W)
  obtain ⟨c1, c2, c3⟩ := concretizeValue_spec _ hP V
    (packBits v.val ((List.range W).filter (fun i => !X.Zero.get i && !X.One.get i)))
  rw [matches_iff_bits] at hm
  obtain ⟨hvw, hvlt⟩ := hv
  have hval : (concretizeValue V ((List.range W).filter (fun i => !X.Zero.get i && !X.One.get i))
      (packBits v.val ((List.range W).filter (fun i => !X.Zero.get i && !X.One.get i)))).val
        = v.val := by
    apply Nat.eq_of_testBit_eq
    intro p
    by_cases hmem : p ∈ (List.range W).filter (fun i => !X.Zero.get i && !X.One.get i)
    · obtain ⟨j, hj, hjp⟩ := List.getElem_of_mem hmem
      have hd : ((List.range W).filter (fun i => !X.Zero.get i && !X.One.get i)).getD j 0 = p := by
        rw [List.getD_eq_getElem _ _ hj, hjp]
      rw [← hd, c2 j hj, packBits_testBit _ _ j hj]
    · rw [c3 p hmem, hV p]
      by_cases hp : p < W
      · rw [mem_unknownPositions] at hmem
        cases ho : X.One.val.testBit p
        · cases hz : X.Zero.val.testBit p
          · exact absurd ⟨hp, hz, ho⟩ hmem
          · rw [(hm p).1 hz]; simp
        · rw [(hm p).2 ho]; simp [hp]
      · rw [testBit_eq_false_of_lt hvlt (by omega)]
        simp [hp]
  generalize concretizeValue V ((List.range W).filter (fun i => !X.Zero.get i && !X.One.get i))
      (packBits v.val ((List.range W).filter (fun i => !X.Zero.get i && !X.One.get i))) = c
    at c1 hval
  cases c; cases v
  simp only at c1 hval hvw
  simp only [APInt.mk.injEq]
  exact ⟨by rw [c1, hVw, hvw], hval⟩

theorem concretizeValue_inj (P : List Nat) (hP : P.Nodup) (V : APInt) (i j : Nat)
    (hi : i < 2 ^ P.length) (hj : j < 2 ^ P.length)
    (h : concretizeValue V P i = concretizeValue V P j) : i = j := by
  apply Nat.eq_of_testBit_eq
  intro q
  by_cases hq : q < P.length
  · rw [← (concretizeValue_spec P hP V i).2.1 q hq, ← (concretizeValue_spec P hP V j).2.1 q hq, h]
  · rw [testBit_eq_false_of_lt hi (by omega), testBit_eq_false_of_lt hj (by omega)]

/-- C6: concretization is exact.  For every width `W < 64` and every well-formed
known-bits value `KB` of width `W`, `concretizeKnownBits KB` turns the empty set into a
set whose elements are exactly the `W`-bit vectors that match `KB`. -/
theorem concretizeKnownBits_exact (W : Nat) (hW : W < 64) (KB : KnownBits) (hKB : KB.IsW W)
    (hwf : KB.WellFormed) :
    ∃ S, concretizeKnownBits KB [] = some S ∧
      ∀ v : APInt, v ∈ S ↔ (v.IsW W ∧ KnownBits.Matches v KB) := by
  obtain ⟨V, hVw, hV, heq⟩ := concretizeKnownBits_eq W hW KB hKB
  refine ⟨_, heq, fun v => ?_⟩
  have hwid : ∀ i, (concretizeValue V
      ((List.range W).filter (fun i => !KB.Zero.get i && !KB.One.get i)) i).BitWidth = W :=
    fun i => (concretizeValue_matches W KB hKB hwf V hVw hV i).1.1
  rw [(insertAll_spec W _ hwid _).1 v]
  constructor
  · rintro ⟨i, -, rfl⟩
    exact concretizeValue_matches W KB hKB hwf V hVw hV i
  · rintro ⟨hv, hm⟩
    exact ⟨_, packBits_lt _ _, concretizeValue_packBits W KB V hVw hV v hv hm⟩

/-- Witness for C6 at width 4, `KB = (Zero 0b1000, One 0b0010)`. -/
theorem concretizeKnownBits_exact_witness :
    ∃ S, concretizeKnownBits ⟨⟨4, 8⟩, ⟨4, 2⟩⟩ [] = some S ∧
      ∀ v : APInt, v ∈ S ↔ (v.IsW 4 ∧ KnownBits.Matches v ⟨⟨4, 8⟩, ⟨4, 2⟩⟩) :=
  concretizeKnownBits_exact 4 (by decide) ⟨⟨4, 8⟩, ⟨4, 2⟩⟩ (by decide) (by decide)

/-- C7: concretization size.  For every width `W < 64` and every well-formed known-bits
value `KB` of width `W` with `U` unknown bits, `concretizeKnownBits KB` turns the empty
set into a set of exactly `2 ^ U` elements. -/
theorem concretizeKnownBits_size (W : Nat) (hW : W < 64) (KB : KnownBits) (hKB : KB.IsW W)
    (hwf : KB.WellFormed) :
    ∃ S, concretizeKnownBits KB [] = some S ∧ S.length = 2 ^ numUnknown W KB := by
  obtain ⟨V, hVw, hV, heq⟩ := concretizeKnownBits_eq W hW KB hKB
  refine ⟨_, heq, ?_⟩
  have hwid : ∀ i, (concretizeValue V
      ((List.range W).filter (fun i => !KB.Zero.get i && !KB.One.get i)) i).BitWidth = W :=
    fun i => (concretizeValue_matches W KB hKB hwf V hVw hV i).1.1
  rw [numUnknown_eq]
  apply (insertAll_spec W _ hwid _).2
  intro i j hi hj h
  exact concretizeValue_inj _ (List.Nodup.filter _ (List.nodup_range W)) V i j hi hj h

/-- Witness for C7 at width 4, `KB = (Zero 0b1000, One 0b0010)` with 2 unknown bits. -/
theorem concretizeKnownBits_size_witness :
    ∃ S, concretizeKnownBits ⟨⟨4, 8⟩, ⟨4, 2⟩⟩ [] = some S ∧
      S.length = 2 ^ numUnknown 4 ⟨⟨4, 8⟩, ⟨4, 2⟩⟩ :=
  concretizeKnownBits_size 4 (by decide) ⟨⟨4, 8⟩, ⟨4, 2⟩⟩ (by decide) (by decide)

/-! ## In-range shifts -/

theorem highBits_mask (W k : Nat) (hk : k ≤ W) :
    (2 ^ k - 1) <<< (W - k) = 2 ^ W - 2 ^ (W - k) := by
  rw [Nat.shiftLeft_eq, Nat.sub_mul, Nat.one_mul, ← Nat.pow_add]
  congr 2
  omega

/-- C11: in-range shifts.  For every width `W ≥ 1`, every known-bits value `X` of width
`W` and every `k < W`: `knownBitsShl X k` has `One = X.One shl k` and
`Zero = (X.Zero shl k)` with the low `k` bits (the mask `2 ^ k - 1`) set in addition;
`knownBitsLshr X k` has `One = X.One lshr k` and `Zero = (X.Zero lshr k)` with the high
`k` bits (the mask `2 ^ W - 2 ^ (W - k)`) set in addition; all four masks have width
`W`. -/
theorem inrange_shift_masks (W : Nat) (_hW : 1 ≤ W) (X : KnownBits) (hX : X.IsW W) (k : Nat)
    (hk : k < W) :
    ((knownBitsShl X k).One.val = (X.One.val <<< k) % 2 ^ W ∧
     (knownBitsShl X k).Zero.val = (X.Zero.val <<< k) % 2 ^ W ||| (2 ^ k - 1)) ∧
    ((knownBitsLshr X k).One.val = X.One.val >>> k ∧
     (knownBitsLshr X k).Zero.val = X.Zero.val >>> k ||| (2 ^ W - 2 ^ (W - k))) ∧
    ((knownBitsShl X k).One.BitWidth = W ∧ (knownBitsShl X k).Zero.BitWidth = W ∧
     (knownBitsLshr X k).One.BitWidth = W ∧ (knownBitsLshr X k).Zero.BitWidth = W) := by
  obtain ⟨⟨hzw, -⟩, ⟨how, -⟩⟩ := hX
  have h1 : ¬ W ≤ k := by omega
  unfold knownBitsShl knownBitsLshr
  simp only [KnownBits.getBitWidth, hzw, if_neg h1, APInt.shl, APInt.lshr, APInt.setLowBits,
    APInt.setHighBits, APInt.setBits, how, Nat.sub_zero, Nat.shiftLeft_zero,
    Nat.sub_sub_self (Nat.le_of_lt hk), highBits_mask W k (Nat.le_of_lt hk), and_self]

/-- Witness for C11 at width 4, `X = (Zero 0b1000, One 0b0010)`, `k = 1`. -/
theorem inrange_shift_masks_witness :
    ((knownBitsShl ⟨⟨4, 8⟩, ⟨4, 2⟩⟩ 1).One.val = (2 <<< 1) % 2 ^ 4 ∧
     (knownBitsShl ⟨⟨4, 8⟩, ⟨4, 2⟩⟩ 1).Zero.val = (8 <<< 1) % 2 ^ 4 ||| (2 ^ 1 - 1)) ∧
    ((knownBitsLshr ⟨⟨4, 8⟩, ⟨4, 2⟩⟩ 1).One.val = 2 >>> 1 ∧
     (knownBitsLshr ⟨⟨4, 8⟩, ⟨4, 2⟩⟩ 1).Zero.val = 8 >>> 1 ||| (2 ^ 4 - 2 ^ (4 - 1))) ∧
    ((knownBitsShl ⟨⟨4, 8⟩, ⟨4, 2⟩⟩ 1).One.BitWidth = 4 ∧
     (knownBitsShl ⟨⟨4, 8⟩, ⟨4, 2⟩⟩ 1).Zero.BitWidth = 4 ∧
     (knownBitsLshr ⟨⟨4, 8⟩, ⟨4, 2⟩⟩ 1).One.BitWidth = 4 ∧
     (knownBitsLshr ⟨⟨4, 8⟩, ⟨4, 2⟩⟩ 1).Zero.BitWidth = 4) :=
  inrange_shift_masks 4 (by decide) ⟨⟨4, 8⟩, ⟨4, 2⟩⟩ (by decide) 1 (by decide)

/-! ## The composite rotate-left -/

theorem knownBitsRotateLeft_eq_rotl (W k : Nat) (hW : 1 ≤ W) (X : KnownBits) (hX : X.IsW W) :
    knownBitsRotateLeft X k = ⟨X.Zero.rotl k, X.One.rotl k⟩ := by
  rw [rotl_eq_shl_or_lshr W k hW X.Zero hX.1, rotl_eq_shl_or_lshr W k hW X.One hX.2]
  unfold knownBitsRotateLeft
  simp only [KnownBits.getBitWidth, hX.1.1]

/-- C12: the composite rotate-left is a bit permutation with the shift reduced modulo
the width.  For every width `W ≥ 1`, every known-bits value `X` of width `W`, every
shift amount `k` and every position `i < W`, bit `(i + k) mod W` of
`(knownBitsRotateLeft X k).Zero` is bit `i` of `X.Zero`, and likewise for `One`;
`knownBitsRotateLeft X k = knownBitsRotateLeft X (k mod W)`, and a shift that is a
multiple of `W` returns `X`. -/
theorem rotate_left_permutes_bits (W : Nat) (hW : 1 ≤ W) (X : KnownBits) (hX : X.IsW W)
    (k : Nat) :
    (∀ i, i < W →
      (knownBitsRotateLeft X k).Zero.val.testBit ((i + k) % W) = X.Zero.val.testBit i ∧
      (knownBitsRotateLeft X k).One.val.testBit ((i + k) % W) = X.One.val.testBit i) ∧
    knownBitsRotateLeft X k = knownBitsRotateLeft X (k % W) ∧
    (∀ m, knownBitsRotateLeft X (m * W) = X) := by
  refine ⟨fun i hi => ?_, ?_, fun m => ?_⟩
  · rw [knownBitsRotateLeft_eq_rotl W k hW X hX]
    exact ⟨rotl_testBit W k hW X.Zero hX.1 i hi, rotl_testBit W k hW X.One hX.2 i hi⟩
  · unfold knownBitsRotateLeft
    simp only [KnownBits.getBitWidth, hX.1.1, Nat.mod_mod]
  · rw [knownBitsRotateLeft_eq_rotl W (m * W) hW X hX]
    unfold APInt.rotl
    simp only [hX.1.1, hX.2.1, Nat.mul_mod_left, if_true]

/-- Witness for C12 at width 4, `X = (Zero 0b1000, One 0b0010)`, `k = 5`. -/
theorem rotate_left_permutes_bits_witness :
    (∀ i, i < 4 →
      (knownBitsRotateLeft ⟨⟨4, 8⟩, ⟨4, 2⟩⟩ 5).Zero.val.testBit ((i + 5) % 4) =
        (8 : Nat).testBit i ∧
      (knownBitsRotateLeft ⟨⟨4, 8⟩, ⟨4, 2⟩⟩ 5).One.val.testBit ((i + 5) % 4) =
        (2 : Nat).testBit i) ∧
    knownBitsRotateLeft ⟨⟨4, 8⟩, ⟨4, 2⟩⟩ 5 = knownBitsRotateLeft ⟨⟨4, 8⟩, ⟨4, 2⟩⟩ (5 % 4) ∧
    (∀ m, knownBitsRotateLeft ⟨⟨4, 8⟩, ⟨4, 2⟩⟩ (m * 4) = ⟨⟨4, 8⟩, ⟨4, 2⟩⟩) :=
  rotate_left_permutes_bits 4 (by decide) ⟨⟨4, 8⟩, ⟨4, 2⟩⟩ (by decide) 5

/-! ## Precision comparator -/

open ComparisonResult in
theorem compareKnownBits_eq_ite (A B : KnownBits) :
    compareKnownBits A B =
      if A.One.val = B.One.val ∧ A.Zero.val = B.Zero.val then Equal
      else if A.AtLeastAsPrecise B ∧ ¬ B.AtLeastAsPrecise A then CompositeMorePrecise
      else if B.AtLeastAsPrecise A ∧ ¬ A.AtLeastAsPrecise B then DecomposedMorePrecise
      else Incomparable := by
  unfold compareKnownBits KnownBits.AtLeastAsPrecise
  simp only [APInt.eq, APInt.or, Bool.and_eq_true, beq_iff_eq, Bool.not_eq_true',
    Bool.and_eq_false_imp, not_and]
  by_cases h1 : A.One.val = B.One.val ∧ A.Zero.val = B.Zero.val
  · simp [h1]
  · by_cases h2 : A.One.val ||| B.One.val = A.One.val ∧ A.Zero.val ||| B.Zero.val = A.Zero.val
    · by_cases h3 : B.One.val ||| A.One.val = B.One.val ∧
          B.Zero.val ||| A.Zero.val = B.Zero.val
      · simp [h1, h2, h3]
      · simp only [h1, if_false]
        simp only [not_and] at h3
        simp [h2, h3]
    · by_cases h3 : B.One.val ||| A.One.val = B.One.val ∧
          B.Zero.val ||| A.Zero.val = B.Zero.val
      · simp only [h1, if_false]
        simp only [not_and] at h2
        simp [h2, h3]
      · simp only [h1, if_false]
        simp only [not_and] at h2 h3
        simp [h2, h3]

theorem atLeastAsPrecise_antisymm (A B : KnownBits) :
    (A.AtLeastAsPrecise B ∧ B.AtLeastAsPrecise A) ↔
      (A.One.val = B.One.val ∧ A.Zero.val = B.Zero.val) := by
  unfold KnownBits.AtLeastAsPrecise
  constructor
  · rintro ⟨⟨h1, h2⟩, ⟨h3, h4⟩⟩
    rw [Nat.lor_comm] at h3 h4
    exact ⟨h1.symm.trans h3, h2.symm.trans h4⟩
  · rintro ⟨h1, h2⟩
    rw [h1, h2]
    simp [Nat.or_self]

theorem knownBits_eq_iff_vals (W : Nat) (A B : KnownBits) (hA : A.IsW W) (hB : B.IsW W) :
    A = B ↔ (A.One.val = B.One.val ∧ A.Zero.val = B.Zero.val) := by
  constructor
  · rintro rfl; exact ⟨rfl, rfl⟩
  · rintro ⟨h1, h2⟩
    obtain ⟨⟨azw, azv⟩, ⟨aow, aov⟩⟩ := A
    obtain ⟨⟨bzw, bzv⟩, ⟨bow, bov⟩⟩ := B
    obtain ⟨⟨ha1, -⟩, ⟨ha2, -⟩⟩ := hA
    obtain ⟨⟨hb1, -⟩, ⟨hb2, -⟩⟩ := hB
    simp only at h1 h2 ha1 ha2 hb1 hb2
    subst h1 h2 ha1 ha2 hb1
    rw [hb2]

open ComparisonResult in
theorem compareKnownBits_cases (A B : KnownBits) :
    (compareKnownBits A B = Equal ↔ (A.AtLeastAsPrecise B ∧ B.AtLeastAsPrecise A)) ∧
    (compareKnownBits A B = CompositeMorePrecise ↔
      (A.AtLeastAsPrecise B ∧ ¬ B.AtLeastAsPrecise A)) ∧
    (compareKnownBits A B = DecomposedMorePrecise ↔
      (B.AtLeastAsPrecise A ∧ ¬ A.AtLeastAsPrecise B)) ∧
    (compareKnownBits A B = Incomparable ↔
      (¬ A.AtLeastAsPrecise B ∧ ¬ B.AtLeastAsPrecise A)) := by
  have hiff := atLeastAsPrecise_antisymm A B
  rw [compareKnownBits_eq_ite]
  by_cases he : A.One.val = B.One.val ∧ A.Zero.val = B.Zero.val
  · obtain ⟨h1, h2⟩ := hiff.mpr he
    rw [if_pos he]
    simp [h1, h2]
  · rw [if_neg he]
    by_cases h1 : A.AtLeastAsPrecise B
    · by_cases h2 : B.AtLeastAsPrecise A
      · exact absurd (hiff.mp ⟨h1, h2⟩) he
      · simp [h1, h2]
    · by_cases h2 : B.AtLeastAsPrecise A
      · simp [h1, h2]
      · simp [h1, h2]

open ComparisonResult in
/-- C13: comparator antisymmetry and reflexivity.  For all known-bits values `A`, `B` of
one width, `compareKnownBits A B = CompositeMorePrecise` (the first argument is more
precise) iff `compareKnownBits B A = DecomposedMorePrecise` (the second argument is more
precise), and `compareKnownBits A A = Equal`. -/
theorem compareKnownBits_antisymm_refl (W : Nat) (A B : KnownBits) (_hA : A.IsW W)
    (_hB : B.IsW W) :
    (compareKnownBits A B = CompositeMorePrecise ↔
      compareKnownBits B A = DecomposedMorePrecise) ∧
    compareKnownBits A A = Equal := by
  constructor
  · rw [(compareKnownBits_cases A B).2.1, (compareKnownBits_cases B A).2.2.1]
  · rw [(compareKnownBits_cases A A).1]
    unfold KnownBits.AtLeastAsPrecise
    simp [Nat.or_self]

open ComparisonResult in
/-- Witness for C13 at the 4-bit values `A = (Zero 0b1000, One 0b0010)` and
`B = (Zero 0b0000, One 0b0010)`. -/
theorem compareKnownBits_antisymm_refl_witness :
    (compareKnownBits ⟨⟨4, 8⟩, ⟨4, 2⟩⟩ ⟨⟨4, 0⟩, ⟨4, 2⟩⟩ = CompositeMorePrecise ↔
      compareKnownBits ⟨⟨4, 0⟩, ⟨4, 2⟩⟩ ⟨⟨4, 8⟩, ⟨4, 2⟩⟩ = DecomposedMorePrecise) ∧
    compareKnownBits ⟨⟨4, 8⟩, ⟨4, 2⟩⟩ ⟨⟨4, 8⟩, ⟨4, 2⟩⟩ = Equal :=
  compareKnownBits_antisymm_refl 4 ⟨⟨4, 8⟩, ⟨4, 2⟩⟩ ⟨⟨4, 0⟩, ⟨4, 2⟩⟩ (by decide) (by decide)

open ComparisonResult in
/-- C14: comparator classification.  Writing `A ≥ B` for `(A.One | B.One) = A.One` and
`(A.Zero | B.Zero) = A.Zero`, for all known-bits values `A`, `B` of one width
`compareKnownBits A B` is `Equal` iff both masks are identical, iff `A ≥ B` and `B ≥ A`;
`CompositeMorePrecise` iff `A ≥ B` and not `B ≥ A`; `DecomposedMorePrecise` iff `B ≥ A`
and not `A ≥ B`; `Incomparable` iff neither `A ≥ B` nor `B ≥ A`. -/
theorem compareKnownBits_classification (W : Nat) (A B : KnownBits) (hA : A.IsW W)
    (hB : B.IsW W) :
    (compareKnownBits A B = Equal ↔ A = B) ∧
    (A = B ↔ (A.AtLeastAsPrecise B ∧ B.AtLeastAsPrecise A)) ∧
    (compareKnownBits A B = CompositeMorePrecise ↔
      (A.AtLeastAsPrecise B ∧ ¬ B.AtLeastAsPrecise A)) ∧
    (compareKnownBits A B = DecomposedMorePrecise ↔
      (B.AtLeastAsPrecise A ∧ ¬ A.AtLeastAsPrecise B)) ∧
    (compareKnownBits A B = Incomparable ↔
      (¬ A.AtLeastAsPrecise B ∧ ¬ B.AtLeastAsPrecise A)) := by
  obtain ⟨c1, c2, c3, c4⟩ := compareKnownBits_cases A B
  refine ⟨?_, ?_, c2, c3, c4⟩
  · rw [c1, atLeastAsPrecise_antisymm, knownBits_eq_iff_vals W A B hA hB]
  · rw [atLeastAsPrecise_antisymm, knownBits_eq_iff_vals W A B hA hB]

open ComparisonResult in
/-- Witness for C14 at the 4-bit values `A = (Zero 0b1000, One 0b0010)` and
`B = (Zero 0b0100, One 0b0010)`, which are incomparable. -/
theorem compareKnownBits_classification_witness :
    (compareKnownBits ⟨⟨4, 8⟩, ⟨4, 2⟩⟩ ⟨⟨4, 4⟩, ⟨4, 2⟩⟩ = Equal ↔
      (⟨⟨4, 8⟩, ⟨4, 2⟩⟩ : KnownBits) = ⟨⟨4, 4⟩, ⟨4, 2⟩⟩) ∧
    ((⟨⟨4, 8⟩, ⟨4, 2⟩⟩ : KnownBits) = ⟨⟨4, 4⟩, ⟨4, 2⟩⟩ ↔
      (KnownBits.AtLeastAsPrecise ⟨⟨4, 8⟩, ⟨4, 2⟩⟩ ⟨⟨4, 4⟩, ⟨4, 2⟩⟩ ∧
        KnownBits.AtLeastAsPrecise ⟨⟨4, 4⟩, ⟨4, 2⟩⟩ ⟨⟨4, 8⟩, ⟨4, 2⟩⟩)) ∧
    (compareKnownBits ⟨⟨4, 8⟩, ⟨4, 2⟩⟩ ⟨⟨4, 4⟩, ⟨4, 2⟩⟩ = CompositeMorePrecise ↔
      (KnownBits.AtLeastAsPrecise ⟨⟨4, 8⟩, ⟨4, 2⟩⟩ ⟨⟨4, 4⟩, ⟨4, 2⟩⟩ ∧
        ¬ KnownBits.AtLeastAsPrecise ⟨⟨4, 4⟩, ⟨4, 2⟩⟩ ⟨⟨4, 8⟩, ⟨4, 2⟩⟩)) ∧
    (compareKnownBits ⟨⟨4, 8⟩, ⟨4, 2⟩⟩ ⟨⟨4, 4⟩, ⟨4, 2⟩⟩ = DecomposedMorePrecise ↔
      (KnownBits.AtLeastAsPrecise ⟨⟨4, 4⟩, ⟨4, 2⟩⟩ ⟨⟨4, 8⟩, ⟨4, 2⟩⟩ ∧
        ¬ KnownBits.AtLeastAsPrecise ⟨⟨4, 8⟩, ⟨4, 2⟩⟩ ⟨⟨4, 4⟩, ⟨4, 2⟩⟩)) ∧
    (compareKnownBits ⟨⟨4, 8⟩, ⟨4, 2⟩⟩ ⟨⟨4, 4⟩, ⟨4, 2⟩⟩ = Incomparable ↔
      (¬ KnownBits.AtLeastAsPrecise ⟨⟨4, 8⟩, ⟨4, 2⟩⟩ ⟨⟨4, 4⟩, ⟨4, 2⟩⟩ ∧
        ¬ KnownBits.AtLeastAsPrecise ⟨⟨4, 4⟩, ⟨4, 2⟩⟩ ⟨⟨4, 8⟩, ⟨4, 2⟩⟩)) :=
  compareKnownBits_classification 4 ⟨⟨4, 8⟩, ⟨4, 2⟩⟩ ⟨⟨4, 4⟩, ⟨4, 2⟩⟩ (by decide) (by decide)

/-! ## Abstraction of the empty set -/

/-- C15: abstracting the empty set fails.  `abstractValues` applied to the empty set
returns no known-bits value (the assertion fires), and applied to a non-empty set it
returns a value. -/
theorem abstractValues_rejects_empty (S : List APInt) (hne : S ≠ []) :
    abstractValues [] = none ∧ ∃ R, abstractValues S = some R := by
  refine ⟨rfl, ?_⟩
  cases S with
  | nil => exact absurd rfl hne
  | cons x xs => exact ⟨_, rfl⟩

/-- Witness for C15 at the set of the 2-bit values `0b01` and `0b10`. -/
theorem abstractValues_rejects_empty_witness :
    abstractValues [] = none ∧ ∃ R, abstractValues [⟨2, 1⟩, ⟨2, 2⟩] = some R :=
  abstractValues_rejects_empty [⟨2, 1⟩, ⟨2, 2⟩] (by decide)

/-! ## The no-overlap invariant -/

theorem wellFormed_iff_bits (X : KnownBits) :
    X.WellFormed ↔ ∀ p, X.Zero.val.testBit p = true → X.One.val.testBit p = false := by
  unfold KnownBits.WellFormed
  exact and_eq_zero_iff_bits _ _

theorem knownBitsShl_wellFormed (X : KnownBits) (k : Nat)
    (hw : X.One.BitWidth = X.Zero.BitWidth) (hwf : X.WellFormed) :
    (knownBitsShl X k).WellFormed := by
  rw [wellFormed_iff_bits] at hwf ⊢
  intro p
  unfold knownBitsShl
  by_cases h : X.getBitWidth ≤ k
  · simp [h, KnownBits.resetAll, KnownBits.init, APInt.clearAllBits]
  · simp only [h, if_false, APInt.setLowBits, testBit_setBits, testBit_shl, hw]
    simp only [KnownBits.getBitWidth] at h
    have hk : k < X.Zero.BitWidth := by omega
    simp only [hk, decide_True, Bool.true_and, Bool.and_eq_true, Bool.or_eq_true,
      decide_eq_true_eq, Nat.zero_le]
    rintro (⟨⟨h1, h2⟩, h3⟩ | h2)
    · simp [hwf _ h3]
    · have : ¬ k ≤ p := by omega
      simp [this]

theorem knownBitsLshr_wellFormed (W : Nat) (X : KnownBits) (k : Nat)
    (hX : X.IsW W) (hwf : X.WellFormed) :
    (knownBitsLshr X k).WellFormed := by
  obtain ⟨⟨hzw, hzlt⟩, ⟨how, holt⟩⟩ := hX
  rw [wellFormed_iff_bits] at hwf ⊢
  intro p
  unfold knownBitsLshr
  by_cases h : X.getBitWidth ≤ k
  · simp [h, KnownBits.resetAll, KnownBits.init, APInt.clearAllBits]
  · simp only [h, if_false, APInt.setHighBits, testBit_setBits, testBit_lshr,
      lshr_BitWidth, hzw, how]
    simp only [KnownBits.getBitWidth, hzw] at h
    have hk : k < W := by omega
    simp only [hk, decide_True, Bool.true_and, Bool.and_eq_true, Bool.or_eq_true,
      decide_eq_true_eq]
    rintro (h3 | ⟨h1, h2⟩)
    · exact hwf _ h3
    · exact testBit_eq_false_of_lt holt (by omega)

theorem knownBitsOr_wellFormed (A B : KnownBits) (hA : A.WellFormed) (hB : B.WellFormed) :
    (knownBitsOr A B).WellFormed := by
  rw [wellFormed_iff_bits] at hA hB ⊢
  intro p
  simp only [knownBitsOr, APInt.or, APInt.and, Nat.testBit_or, Nat.testBit_and,
    Bool.and_eq_true, Bool.or_eq_false_iff]
  rintro ⟨h1, h2⟩
  exact ⟨hA p h1, hB p h2⟩

theorem knownBitsRotateLeft_wellFormed (W k : Nat) (hW : 1 ≤ W) (X : KnownBits)
    (hX : X.IsW W) (hwf : X.WellFormed) : (knownBitsRotateLeft X k).WellFormed := by
  obtain ⟨⟨hzw, hzlt⟩, ⟨how, holt⟩⟩ := hX
  have hr : k % W < W := Nat.mod_lt _ (by omega)
  rw [wellFormed_iff_bits] at hwf ⊢
  intro p
  simp only [knownBitsRotateLeft, KnownBits.getBitWidth, APInt.or, Nat.testBit_or,
    testBit_shl, testBit_lshr, hzw, how, hr, decide_True, Bool.true_and,
    Bool.or_eq_true, Bool.and_eq_true, decide_eq_true_eq, Bool.or_eq_false_iff,
    Bool.and_eq_false_imp]
  rintro (⟨⟨h1, h2⟩, h3⟩ | ⟨h1, h3⟩)
  · refine ⟨fun _ => hwf _ h3, fun _ => ?_⟩
    exact testBit_eq_false_of_lt holt (by omega)
  · have hp : W - k % W + p < W := by
      by_contra hc
      rw [testBit_eq_false_of_lt hzlt (by omega)] at h3
      cases h3
    refine ⟨fun h2 => ?_, fun _ => hwf _ h3⟩
    omega

/-- C16: the transfer functions keep the no-overlap invariant.  For every width
`W ≥ 1`, every shift amount `k` and all well-formed known-bits values `X`, `A`, `B` of
width `W`, the results of `knownBitsShl X k`, `knownBitsLshr X k`, `knownBitsOr A B`,
`knownBitsRotateLeft X k` and `knownBitsRotateLeftDecomposed X k` are well-formed. -/
theorem transfer_functions_wellFormed (W k : Nat) (hW : 1 ≤ W) (X A B : KnownBits)
    (hX : X.IsW W) (_hA : A.IsW W) (_hB : B.IsW W)
    (hXwf : X.WellFormed) (hAwf : A.WellFormed) (hBwf : B.WellFormed) :
    (knownBitsShl X k).WellFormed ∧ (knownBitsLshr X k).WellFormed ∧
    (knownBitsOr A B).WellFormed ∧ (knownBitsRotateLeft X k).WellFormed ∧
    (knownBitsRotateLeftDecomposed X k).WellFormed := by
  have hw : X.One.BitWidth = X.Zero.BitWidth := by rw [hX.1.1, hX.2.1]
  refine ⟨knownBitsShl_wellFormed X k hw hXwf, knownBitsLshr_wellFormed W X k hX hXwf,
    knownBitsOr_wellFormed A B hAwf hBwf, knownBitsRotateLeft_wellFormed W k hW X hX hXwf, ?_⟩
  unfold knownBitsRotateLeftDecomposed
  exact knownBitsOr_wellFormed _ _ (knownBitsShl_wellFormed X _ hw hXwf)
    (knownBitsLshr_wellFormed W X _ hX hXwf)

/-- Witness for C16 at width 4, shift 5, `X = A = (Zero 0b1000, One 0b0010)`,
`B = (Zero 0b0100, One 0b0001)`. -/
theorem transfer_functions_wellFormed_witness :
    (knownBitsShl ⟨⟨4, 8⟩, ⟨4, 2⟩⟩ 5).WellFormed ∧
    (knownBitsLshr ⟨⟨4, 8⟩, ⟨4, 2⟩⟩ 5).WellFormed ∧
    (knownBitsOr ⟨⟨4, 8⟩, ⟨4, 2⟩⟩ ⟨⟨4, 4⟩, ⟨4, 1⟩⟩).WellFormed ∧
    (knownBitsRotateLeft ⟨⟨4, 8⟩, ⟨4, 2⟩⟩ 5).WellFormed ∧
    (knownBitsRotateLeftDecomposed ⟨⟨4, 8⟩, ⟨4, 2⟩⟩ 5).WellFormed :=
  transfer_functions_wellFormed 4 5 (by decide) ⟨⟨4, 8⟩, ⟨4, 2⟩⟩ ⟨⟨4, 8⟩, ⟨4, 2⟩⟩
    ⟨⟨4, 4⟩, ⟨4, 1⟩⟩ (by decide) (by decide) (by decide) (by decide) (by decide) (by decide)

/-! ## Composite against decomposed rotate-left -/

theorem APInt_eq_of_fields (x y : APInt) (hw : x.BitWidth = y.BitWidth) (hv : x.val = y.val) :
    x = y := by
  cases x; cases y
  simp only at hw hv
  rw [hw, hv]

theorem decomposed_eq_composite (W k : Nat) (hW : 1 ≤ W) (X : KnownBits) (hX : X.IsW W)
    (hk : k % W ≠ 0) :
    knownBitsRotateLeftDecomposed X k = knownBitsRotateLeft X k := by
  obtain ⟨⟨hzw, hzlt⟩, ⟨how, holt⟩⟩ := hX
  have hr : k % W < W := Nat.mod_lt _ (by omega)
  have h1 : ¬ W ≤ k % W := by omega
  have h2 : ¬ W ≤ W - k % W := by omega
  have h3 : W - k % W < W := by omega
  unfold knownBitsRotateLeftDecomposed knownBitsRotateLeft knownBitsOr knownBitsShl
    knownBitsLshr
  simp only [KnownBits.getBitWidth, hzw, if_neg h1, if_neg h2]
  congr 1
  apply APInt_eq_of_fields
  · rfl
  · apply Nat.eq_of_testBit_eq
    intro p
    simp only [APInt.and, APInt.or, APInt.setLowBits, APInt.setHighBits, Nat.testBit_and,
      Nat.testBit_or, testBit_setBits, testBit_shl, testBit_lshr, lshr_BitWidth, hzw, hr, h3,
      decide_True, Bool.true_and, Nat.zero_le, Nat.sub_sub_self (Nat.le_of_lt hr)]
    by_cases hp1 : p < k % W
    · have hp2 : ¬ k % W ≤ p := by omega
      simp [hp1, hp2]
    · have hp2 : k % W ≤ p := by omega
      have hz : X.Zero.val.testBit (W - k % W + p) = false :=
        testBit_eq_false_of_lt hzlt (by omega)
      by_cases hp3 : p < W
      · simp [hp1, hp2, hp3, hz]
      · simp [hp1, hp2, hp3, hz]

theorem decomposed_at_multiple (W k : Nat) (hW : 1 ≤ W) (X : KnownBits) (hX : X.IsW W)
    (hk : k % W = 0) :
    knownBitsRotateLeftDecomposed X k = ⟨⟨W, 0⟩, X.One⟩ := by
  obtain ⟨⟨hzw, hzlt⟩, ⟨how, holt⟩⟩ := hX
  have h1 : ¬ W ≤ 0 := by omega
  unfold knownBitsRotateLeftDecomposed knownBitsOr knownBitsShl knownBitsLshr
  simp only [KnownBits.getBitWidth, hzw, hk, if_neg h1, Nat.sub_zero, Nat.le_refl, if_true,
    KnownBits.resetAll, KnownBits.init, APInt.clearAllBits]
  congr 1
  · apply APInt_eq_of_fields
    · exact hzw
    · simp [APInt.and]
  · apply APInt_eq_of_fields
    · rfl
    · simp [APInt.or, APInt.shl, how, h1, Nat.mod_eq_of_lt holt]

theorem composite_at_multiple (W k : Nat) (hW : 1 ≤ W) (X : KnownBits) (hX : X.IsW W)
    (hk : k % W = 0) : knownBitsRotateLeft X k = X := by
  rw [knownBitsRotateLeft_eq_rotl W k hW X hX]
  unfold APInt.rotl
  simp only [hX.1.1, hX.2.1, hk, if_true]

open ComparisonResult in
theorem compareKnownBits_self (A : KnownBits) : compareKnownBits A A = Equal := by
  rw [(compareKnownBits_cases A A).1]
  unfold KnownBits.AtLeastAsPrecise
  simp [Nat.or_self]

open ComparisonResult in
theorem compare_at_multiple (W : Nat) (X : KnownBits) :
    (compareKnownBits X ⟨⟨W, 0⟩, X.One⟩ = Equal ↔ X.Zero.val = 0) ∧
    (compareKnownBits X ⟨⟨W, 0⟩, X.One⟩ = CompositeMorePrecise ↔ X.Zero.val ≠ 0) := by
  obtain ⟨c1, c2, -, -⟩ := compareKnownBits_cases X ⟨⟨W, 0⟩, X.One⟩
  rw [c1, c2]
  unfold KnownBits.AtLeastAsPrecise
  simp only [Nat.or_self, Nat.or_zero, Nat.zero_or, and_self, true_and, ne_eq]

/-! ## Driver -/

/-- The sum of the four counters of the driver. -/
theorem testStep_counts (k : Nat) (c : Counts) (X : KnownBits) :
    (testStep k c X).TotalValues = c.TotalValues ∧
    (testStep k c X).EqualCount + (testStep k c X).CompositeMorePreciseCount +
        (testStep k c X).DecomposedMorePreciseCount + (testStep k c X).IncomparableCount =
      c.EqualCount + c.CompositeMorePreciseCount + c.DecomposedMorePreciseCount +
        c.IncomparableCount + 1 := by
  cases h : compareKnownBits (knownBitsRotateLeft X k) (knownBitsRotateLeftDecomposed X k) <;>
    simp only [testStep, h, reduceCtorEq, if_false, if_true, true_and] <;> omega

theorem foldl_testStep_counts (k : Nat) (L : List KnownBits) :
    ∀ c : Counts,
      (L.foldl (testStep k) c).TotalValues = c.TotalValues ∧
      (L.foldl (testStep k) c).EqualCount + (L.foldl (testStep k) c).CompositeMorePreciseCount +
          (L.foldl (testStep k) c).DecomposedMorePreciseCount +
          (L.foldl (testStep k) c).IncomparableCount =
        c.EqualCount + c.CompositeMorePreciseCount + c.DecomposedMorePreciseCount +
          c.IncomparableCount + L.length := by
  induction L with
  | nil => intro c; simp
  | cons x xs ih =>
    intro c
    rw [List.foldl_cons, List.length_cons]
    obtain ⟨h1, h2⟩ := ih (testStep k c x)
    obtain ⟨h3, h4⟩ := testStep_counts k c x
    exact ⟨h1.trans h3, by rw [h2, h4]; omega⟩

open ComparisonResult in
theorem foldl_testStep_equal (k : Nat) (L : List KnownBits)
    (hL : ∀ X ∈ L, compareKnownBits (knownBitsRotateLeft X k)
      (knownBitsRotateLeftDecomposed X k) = Equal) :
    ∀ c : Counts, L.foldl (testStep k) c = { c with EqualCount := c.EqualCount + L.length } := by
  induction L with
  | nil => intro c; simp
  | cons x xs ih =>
    intro c
    rw [List.foldl_cons, ih (fun X hX => hL X (List.mem_cons_of_mem _ hX))]
    have hx := hL x (List.mem_cons_self _ _)
    unfold testStep
    simp only [hx, List.length_cons]
    simp only [reduceCtorEq, if_false, if_true]
    congr 1
    omega

theorem testTransferFunctions_all_equal (W k : Nat) (hW : 1 ≤ W) (hW40 : W ≤ 40)
    (hk : k % W ≠ 0) : testTransferFunctions W k = ⟨3 ^ W, 0, 0, 0, 3 ^ W⟩ := by
  unfold testTransferFunctions
  have hlen : (generateAllKnownBits W []).length = 3 ^ W := by
    rw [generateAllKnownBits_eq W hW40]; simp
  rw [foldl_testStep_equal k _ _, hlen]
  · simp
  · intro X hX
    rw [generateAllKnownBits_eq W hW40, List.nil_append, List.mem_map] at hX
    obtain ⟨i, -, rfl⟩ := hX
    rw [decomposed_eq_composite W k hW _ (genValue_isW W i) hk]
    exact compareKnownBits_self _

/-- C17: the driver's counts partition the inputs.  For every `BitWidth W` with
`1 ≤ W ≤ 40` and every `ShiftAmount k`, the four counters computed by
`testTransferFunctions` (Equal, CompositeMorePrecise, DecomposedMorePrecise,
Incomparable) sum to `TotalValues`, which is the number of enumerated known-bits values,
`3 ^ W`; for `BitWidth = 4` and `ShiftAmount = 1` the sum is 81. -/
theorem driver_counts_partition (W k : Nat) (_hW : 1 ≤ W) (hW40 : W ≤ 40) :
    (testTransferFunctions W k).EqualCount +
        (testTransferFunctions W k).CompositeMorePreciseCount +
        (testTransferFunctions W k).DecomposedMorePreciseCount +
        (testTransferFunctions W k).IncomparableCount =
      (testTransferFunctions W k).TotalValues ∧
    (testTransferFunctions W k).TotalValues = (generateAllKnownBits W []).length ∧
    (testTransferFunctions W k).TotalValues = 3 ^ W ∧
    (testTransferFunctions 4 1).EqualCount +
        (testTransferFunctions 4 1).CompositeMorePreciseCount +
        (testTransferFunctions 4 1).DecomposedMorePreciseCount +
        (testTransferFunctions 4 1).IncomparableCount = 81 := by
  have hgen : ∀ V s : Nat, V ≤ 40 →
      (testTransferFunctions V s).EqualCount +
          (testTransferFunctions V s).CompositeMorePreciseCount +
          (testTransferFunctions V s).DecomposedMorePreciseCount +
          (testTransferFunctions V s).IncomparableCount = 3 ^ V ∧
      (testTransferFunctions V s).TotalValues = (generateAllKnownBits V []).length ∧
      (generateAllKnownBits V []).length = 3 ^ V := by
    intro V s hV
    have hlen : (generateAllKnownBits V []).length = 3 ^ V := by
      rw [generateAllKnownBits_eq V hV]; simp
    obtain ⟨h1, h2⟩ := foldl_testStep_counts s (generateAllKnownBits V [])
      ⟨(generateAllKnownBits V []).length, 0, 0, 0, 0⟩
    unfold testTransferFunctions
    refine ⟨?_, h1, hlen⟩
    rw [h2, hlen]
    simp
  obtain ⟨g1, g2, g3⟩ := hgen W k hW40
  refine ⟨by rw [g1, g2, g3], g2, g2.trans g3, ?_⟩
  rw [(hgen 4 1 (by decide)).1]
  norm_num

/-- Witness for C17 at `BitWidth = 4`, `ShiftAmount = 1`. -/
theorem driver_counts_partition_witness :
    (testTransferFunctions 4 1).EqualCount +
        (testTransferFunctions 4 1).CompositeMorePreciseCount +
        (testTransferFunctions 4 1).DecomposedMorePreciseCount +
        (testTransferFunctions 4 1).IncomparableCount =
      (testTransferFunctions 4 1).TotalValues ∧
    (testTransferFunctions 4 1).TotalValues = (generateAllKnownBits 4 []).length ∧
    (testTransferFunctions 4 1).TotalValues = 3 ^ 4 ∧
    (testTransferFunctions 4 1).EqualCount +
        (testTransferFunctions 4 1).CompositeMorePreciseCount +
        (testTransferFunctions 4 1).DecomposedMorePreciseCount +
        (testTransferFunctions 4 1).IncomparableCount = 81 :=
  driver_counts_partition 4 1 (by decide) (by decide)

open ComparisonResult in
/-- C18: the two rotate-left formulations can differ on abstract values.  At width 4,
for the well-formed value `X = (Zero 0b1000, One 0b0010)` and the shift amount 4,
`knownBitsRotateLeft X 4` and `knownBitsRotateLeftDecomposed X 4` are different
known-bits values and `compareKnownBits` of the two does not return `Equal`. -/
theorem rotate_forms_can_differ :
    ∃ (W : Nat) (X : KnownBits) (k : Nat), 1 ≤ W ∧ X.IsW W ∧ X.WellFormed ∧
      knownBitsRotateLeft X k ≠ knownBitsRotateLeftDecomposed X k ∧
      compareKnownBits (knownBitsRotateLeft X k) (knownBitsRotateLeftDecomposed X k) ≠ Equal :=
  ⟨4, ⟨⟨4, 8⟩, ⟨4, 2⟩⟩, 4, by decide⟩

open ComparisonResult in
/-- C19: for every width `W ≥ 1`, every known-bits value `X` of width `W` and every shift
amount `k` with `k mod W ≠ 0`, `knownBitsRotateLeftDecomposed X k` equals
`knownBitsRotateLeft X k`, so `compareKnownBits` returns `Equal`; for `ShiftAmount = 1`
and `BitWidth` 4, 5, 6 the driver's counts are `Equal = 3 ^ BitWidth` (81, 243, 729) and 0
for the other three. -/
theorem decomposed_equals_composite_off_multiples (W k : Nat) (hW : 1 ≤ W) (X : KnownBits)
    (hX : X.IsW W) (hk : k % W ≠ 0) :
    knownBitsRotateLeftDecomposed X k = knownBitsRotateLeft X k ∧
    compareKnownBits (knownBitsRotateLeft X k) (knownBitsRotateLeftDecomposed X k) = Equal ∧
    testTransferFunctions 4 1 = ⟨81, 0, 0, 0, 81⟩ ∧
    testTransferFunctions 5 1 = ⟨243, 0, 0, 0, 243⟩ ∧
    testTransferFunctions 6 1 = ⟨729, 0, 0, 0, 729⟩ := by
  refine ⟨decomposed_eq_composite W k hW X hX hk, ?_, ?_, ?_, ?_⟩
  · rw [decomposed_eq_composite W k hW X hX hk]
    exact compareKnownBits_self _
  · rw [testTransferFunctions_all_equal 4 1 (by decide) (by decide) (by decide)]
    norm_num
  · rw [testTransferFunctions_all_equal 5 1 (by decide) (by decide) (by decide)]
    norm_num
  · rw [testTransferFunctions_all_equal 6 1 (by decide) (by decide) (by decide)]
    norm_num

open ComparisonResult in
/-- Witness for C19 at width 4, `X = (Zero 0b1000, One 0b0010)`, `k = 5`. -/
theorem decomposed_equals_composite_off_multiples_witness :
    knownBitsRotateLeftDecomposed ⟨⟨4, 8⟩, ⟨4, 2⟩⟩ 5 = knownBitsRotateLeft ⟨⟨4, 8⟩, ⟨4, 2⟩⟩ 5 ∧
    compareKnownBits (knownBitsRotateLeft ⟨⟨4, 8⟩, ⟨4, 2⟩⟩ 5)
      (knownBitsRotateLeftDecomposed ⟨⟨4, 8⟩, ⟨4, 2⟩⟩ 5) = Equal ∧
    testTransferFunctions 4 1 = ⟨81, 0, 0, 0, 81⟩ ∧
    testTransferFunctions 5 1 = ⟨243, 0, 0, 0, 243⟩ ∧
    testTransferFunctions 6 1 = ⟨729, 0, 0, 0, 729⟩ :=
  decomposed_equals_composite_off_multiples 4 5 (by decide) ⟨⟨4, 8⟩, ⟨4, 2⟩⟩ (by decide)
    (by decide)

open ComparisonResult in
/-- C20: the composite form is never less precise than the decomposed form.  For every
width `W ≥ 1`, every known-bits value `X` of width `W` and every shift amount `k`,
`compareKnownBits (knownBitsRotateLeft X k) (knownBitsRotateLeftDecomposed X k)` is
`Equal` or `CompositeMorePrecise`, never `DecomposedMorePrecise` or `Incomparable`; when
`k` is a multiple of `W` the decomposed result has `Zero = 0` and `One = X.One`, and the
comparison is `CompositeMorePrecise` exactly when `X.Zero ≠ 0`. -/
theorem composite_never_less_precise (W k : Nat) (hW : 1 ≤ W) (X : KnownBits)
    (hX : X.IsW W) :
    (compareKnownBits (knownBitsRotateLeft X k) (knownBitsRotateLeftDecomposed X k) = Equal ∨
      compareKnownBits (knownBitsRotateLeft X k) (knownBitsRotateLeftDecomposed X k) =
        CompositeMorePrecise) ∧
    compareKnownBits (knownBitsRotateLeft X k) (knownBitsRotateLeftDecomposed X k) ≠
      DecomposedMorePrecise ∧
    compareKnownBits (knownBitsRotateLeft X k) (knownBitsRotateLeftDecomposed X k) ≠
      Incomparable ∧
    (∀ m, knownBitsRotateLeftDecomposed X (m * W) = ⟨⟨W, 0⟩, X.One⟩ ∧
      (compareKnownBits (knownBitsRotateLeft X (m * W))
          (knownBitsRotateLeftDecomposed X (m * W)) = CompositeMorePrecise ↔
        X.Zero.val ≠ 0)) := by
  have hmain : compareKnownBits (knownBitsRotateLeft X k)
        (knownBitsRotateLeftDecomposed X k) = Equal ∨
      compareKnownBits (knownBitsRotateLeft X k) (knownBitsRotateLeftDecomposed X k) =
        CompositeMorePrecise := by
    by_cases hk : k % W = 0
    · rw [composite_at_multiple W k hW X hX hk, decomposed_at_multiple W k hW X hX hk]
      by_cases hz : X.Zero.val = 0
      · exact Or.inl ((compare_at_multiple W X).1.mpr hz)
      · exact Or.inr ((compare_at_multiple W X).2.mpr hz)
    · rw [decomposed_eq_composite W k hW X hX hk]
      exact Or.inl (compareKnownBits_self _)
  refine ⟨hmain, ?_, ?_, fun m => ?_⟩
  · rcases hmain with h | h <;> rw [h] <;> decide
  · rcases hmain with h | h <;> rw [h] <;> decide
  · have hm : m * W % W = 0 := Nat.mul_mod_left m W
    refine ⟨decomposed_at_multiple W _ hW X hX hm, ?_⟩
    rw [composite_at_multiple W _ hW X hX hm, decomposed_at_multiple W _ hW X hX hm]
    exact (compare_at_multiple W X).2

open ComparisonResult in
/-- Witness for C20 at width 4, `X = (Zero 0b1000, One 0b0010)`, `k = 4`. -/
theorem composite_never_less_precise_witness :
    (compareKnownBits (knownBitsRotateLeft ⟨⟨4, 8⟩, ⟨4, 2⟩⟩ 4)
        (knownBitsRotateLeftDecomposed ⟨⟨4, 8⟩, ⟨4, 2⟩⟩ 4) = Equal ∨
      compareKnownBits (knownBitsRotateLeft ⟨⟨4, 8⟩, ⟨4, 2⟩⟩ 4)
        (knownBitsRotateLeftDecomposed ⟨⟨4, 8⟩, ⟨4, 2⟩⟩ 4) = CompositeMorePrecise) ∧
    compareKnownBits (knownBitsRotateLeft ⟨⟨4, 8⟩, ⟨4, 2⟩⟩ 4)
      (knownBitsRotateLeftDecomposed ⟨⟨4, 8⟩, ⟨4, 2⟩⟩ 4) ≠ DecomposedMorePrecise ∧
    compareKnownBits (knownBitsRotateLeft ⟨⟨4, 8⟩, ⟨4, 2⟩⟩ 4)
      (knownBitsRotateLeftDecomposed ⟨⟨4, 8⟩, ⟨4, 2⟩⟩ 4) ≠ Incomparable ∧
    (∀ m, knownBitsRotateLeftDecomposed ⟨⟨4, 8⟩, ⟨4, 2⟩⟩ (m * 4) = ⟨⟨4, 0⟩, ⟨4, 2⟩⟩ ∧
      (compareKnownBits (knownBitsRotateLeft ⟨⟨4, 8⟩, ⟨4, 2⟩⟩ (m * 4))
          (knownBitsRotateLeftDecomposed ⟨⟨4, 8⟩, ⟨4, 2⟩⟩ (m * 4)) = CompositeMorePrecise ↔
        (8 : Nat) ≠ 0)) :=
  composite_never_less_precise 4 4 (by decide) ⟨⟨4, 8⟩, ⟨4, 2⟩⟩ (by decide)

end KBT
